import Mathlib

/-!
Verification of the fine-grain relevance-store plugin (`src/main.ts`).

JavaScript strings are modelled as `List Char`.  Every operation of the
plugin that the claims mention is translated here as an executable Lean
function over that model: the row codec (`sanitize`, `encodeRow`,
`decodeRow`), the relevance store operations (`createLink`,
`getRelevanceData`, `appendRelevance`, `removeRelevanceItem`,
`deleteConnection`), the editor-side marker stripping of
`deleteConnection`, the marker scanner of `buildDecorations`, and the
claims-list parsing of `ConnectionModal.onOpen`.

JavaScript primitives used by the source are modelled as follows:
`String.prototype.trim` trims ASCII whitespace from both ends
(`ltrim`/`rtrim`/`trim`), `split` with a one-character separator is
`splitOnChar`, `split` with the multi-character separator `" <br> "` is
`splitSep` (leftmost, non-overlapping), `Array.prototype.join` is
`List.intercalate`, `String.prototype.includes` is `includes`, and the
two regular expressions of the source are modelled by direct scanning
functions with the same leftmost-match, resume-after-match semantics.
-/

namespace FineGrain

/-- A JavaScript string, modelled as its list of characters. -/
abbrev JSString := List Char

/-- ASCII whitespace recognised by `String.prototype.trim` (the model
restricts itself to the whitespace characters that can actually occur
in the store file). -/
def isWsChar (c : Char) : Bool := c = ' ' || c = '\t' || c = '\n' || c = '\r'

/-- Remove leading whitespace. -/
def ltrim (s : JSString) : JSString := s.dropWhile isWsChar

/-- Remove trailing whitespace. -/
def rtrim (s : JSString) : JSString := (s.reverse.dropWhile isWsChar).reverse

/-- `String.prototype.trim`: remove whitespace from both ends. -/
def trim (s : JSString) : JSString := ltrim (rtrim s)

/-- The in-cell separator `SEPARATOR = " <br> "` of `main.ts`. -/
def SEPARATOR : JSString := (" <br> ").toList

/-- The bare separator token `<br>`. -/
def BR : JSString := ("<br>").toList

/-- Helper for the splitting functions: prepend a character to the first
chunk of a chunk list. -/
def consHead (c : Char) : List JSString → List JSString
  | [] => [[c]]
  | h :: t => (c :: h) :: t

/-- `String.prototype.split` with a single-character separator:
splits at every occurrence, keeping empty chunks (so that
`"".split(c) = [""]` and a trailing separator yields a trailing `""`). -/
def splitOnChar (a : Char) : JSString → List JSString
  | [] => [[]]
  | c :: rest =>
    if c = a then [] :: splitOnChar a rest
    else consHead c (splitOnChar a rest)

/-- Fuel-driven worker for `splitSep`.  At each position, if the
separator is a prefix the scan emits a chunk boundary and resumes after
the separator (JavaScript's leftmost, non-overlapping `split`
semantics); otherwise the character joins the current chunk. -/
def splitSepGo : Nat → JSString → List JSString
  | 0, s => [s]
  | _ + 1, [] => [[]]
  | fuel + 1, c :: rest =>
    if SEPARATOR.isPrefixOf (c :: rest) then [] :: splitSepGo fuel (rest.drop 5)
    else consHead c (splitSepGo fuel rest)

/-- `String.prototype.split(" <br> ")`. -/
def splitSep (s : JSString) : List JSString := splitSepGo s.length s

/-- `String.prototype.includes`: substring test. -/
def includes (l sub : JSString) : Bool :=
  match l with
  | [] => sub.isEmpty
  | _ :: t => sub.isPrefixOf l || includes t sub

/-- `NoBr s` says the string does not contain the separator token `<br>`
anywhere; such strings can never collide with the in-cell separator. -/
def NoBr (s : JSString) : Prop := ¬ BR <:+: s

/-! ### The plugin's functions, translated from `src/main.ts` -/

/-- `sanitize` (`main.ts` line 175): replace every `|` by `-`, every
newline by a space, and trim. -/
def sanitize (text : JSString) : JSString :=
  trim ((text.map (fun c => if c = '|' then '-' else c)).map
    (fun c => if c = '\n' then ' ' else c))

/-- The search pattern `"| " + id + " |"` used by the store operations. -/
def rowPattern (id : JSString) : JSString := ("| ").toList ++ id ++ (" |").toList

/-- The inline marker text `"(fg:" + id + ")"`. -/
def markerPattern (id : JSString) : JSString := ("(fg:").toList ++ id ++ (")").toList

/-- The header written when the store file is created
(`main.ts` line 58). -/
def HEADER : JSString :=
  ("---\ncssclasses: fg-database\n---\n\n| ID | Claim | Relevance |\n|---|---|---|\n").toList

/-- The store-file effect of `createLink` (`main.ts` lines 47-63): append
one encoded row, creating the file with header content when the file is
absent (`store = none`).  The fresh id is a parameter here since the
source derives it from the current time. -/
def createLink (store : Option JSString) (id claim relevance : JSString) : JSString :=
  let row := ("| ").toList ++ id ++ (" | ").toList ++ sanitize claim ++
    (" | ").toList ++ sanitize relevance ++ (" |\n").toList
  match store with
  | some content => content ++ row
  | none => HEADER ++ row

/-- The `for`-loop of `getRelevanceData` (`main.ts` lines 72-82): find a
line containing `"| id |"` whose split has at least 4 fields and decode
it; keep scanning otherwise. -/
def getRelevanceLoop (id : JSString) : List JSString → Option (JSString × List JSString)
  | [] => none
  | line :: rest =>
    if includes line (rowPattern id) then
      let parts := (splitOnChar '|' line).map trim
      if 4 ≤ parts.length then
        let rawRelevance := parts.getD 3 []
        if rawRelevance = [] then some (parts.getD 2 [], [])
        else some (parts.getD 2 [],
          (splitSep rawRelevance).filter (fun s => !(trim s).isEmpty))
      else getRelevanceLoop id rest
    else getRelevanceLoop id rest

/-- `getRelevanceData` (`main.ts` lines 65-84); `store = none` models a
missing store file. -/
def getRelevanceData (store : Option JSString) (id : JSString) :
    Option (JSString × List JSString) :=
  match store with
  | none => none
  | some content => getRelevanceLoop id (splitOnChar '\n' content)

/-- The per-line rewrite of `appendRelevance` (`main.ts` lines 94-105). -/
def appendLine (id safeText line : JSString) : JSString :=
  if includes line (rowPattern id) then
    let parts := splitOnChar '|' line
    if 4 ≤ parts.length then
      let current := trim (parts.getD 3 [])
      let sep := if 0 < current.length then SEPARATOR else [' ']
      List.intercalate ['|'] (parts.set 3 ([' '] ++ current ++ sep ++ safeText ++ [' ']))
    else line
  else line

/-- `appendRelevance` (`main.ts` lines 86-108). -/
def appendRelevance (store : Option JSString) (id newText : JSString) : Option JSString :=
  match store with
  | none => none
  | some content =>
    some (List.intercalate ['\n']
      ((splitOnChar '\n' content).map (appendLine id (sanitize newText))))

/-- The per-line rewrite of `removeRelevanceItem`
(`main.ts` lines 117-130).  The index is an `Int` because the source
explicitly guards against negative values. -/
def removeLine (id : JSString) (indexToRemove : Int) (line : JSString) : JSString :=
  if includes line (rowPattern id) then
    let parts := splitOnChar '|' line
    if 4 ≤ parts.length then
      let relArray := (splitSep (parts.getD 3 [])).filter (fun s => !(trim s).isEmpty)
      let relArray2 :=
        if 0 ≤ indexToRemove ∧ indexToRemove < (relArray.length : Int) then
          relArray.eraseIdx indexToRemove.toNat
        else relArray
      List.intercalate ['|'] (parts.set 3 ([' '] ++ List.intercalate SEPARATOR relArray2 ++ [' ']))
    else line
  else line

/-- `removeRelevanceItem` (`main.ts` lines 110-133). -/
def removeRelevanceItem (store : Option JSString) (id : JSString)
    (indexToRemove : Int) : Option JSString :=
  match store with
  | none => none
  | some content =>
    some (List.intercalate ['\n']
      ((splitOnChar '\n' content).map (removeLine id indexToRemove)))

/-- The store-file phase of `deleteConnection` (`main.ts` lines 137-143):
drop every line containing `"| id |"`. -/
def deleteConnection (store : Option JSString) (id : JSString) : Option JSString :=
  match store with
  | none => none
  | some content =>
    some (List.intercalate ['\n']
      ((splitOnChar '\n' content).filter (fun line => !includes line (rowPattern id))))

/-- Horizontal whitespace matched by the `[ \t]*` part of the
marker-stripping regular expression. -/
def isHwsChar (c : Char) : Bool := c = ' ' || c = '\t'

/-- Greedy-with-backtracking match of `[ \t]{0..j}lit` at the head of
`s`: try the longest whitespace run first, as the regex engine does, and
return the total number of characters consumed. -/
def tryLit (lit s : JSString) : Nat → Option Nat
  | 0 => if lit.isPrefixOf s then some lit.length else none
  | j + 1 =>
    if lit.isPrefixOf (s.drop (j + 1)) then some (j + 1 + lit.length)
    else tryLit lit s j

/-- Does the pattern `[ \t]*lit` match at the start of `s`?  Returns the
number of characters of the match. -/
def matchHere (lit s : JSString) : Option Nat :=
  tryLit lit s (s.takeWhile isHwsChar).length

/-- Fuel-driven global scan of `line.replace(/[ \t]*\(fg:id\)/g, "")`
(`main.ts` lines 156-157): find the leftmost match, delete it, resume
immediately after the match. -/
def stripGo (lit : JSString) : Nat → JSString → JSString
  | 0, s => s
  | _ + 1, [] => []
  | fuel + 1, c :: rest =>
    match matchHere lit (c :: rest) with
    | some n => stripGo lit fuel ((c :: rest).drop n)
    | none => c :: stripGo lit fuel rest

/-- The per-line marker-stripping substitution of `deleteConnection`. -/
def stripLine (id : JSString) (line : JSString) : JSString :=
  stripGo (markerPattern id) line.length line

/-- The editor phase of `deleteConnection` (`main.ts` lines 152-171): scan
the document lines top to bottom, rewrite the first line containing the
marker, and stop (`break`).  Cursor handling is not modelled. -/
def deleteConnectionStrip (id : JSString) : List JSString → List JSString
  | [] => []
  | line :: rest =>
    if includes line (markerPattern id) then stripLine id line :: rest
    else line :: deleteConnectionStrip id rest

/-- One decoration produced by the marker scan of `buildDecorations`:
the span of the marker and the captured digit group. -/
structure MarkerDec where
  startOffset : Nat
  endOffset : Nat
  id : JSString
deriving DecidableEq

/-- Does the regular expression `\(fg:(\d+)\)` match at the head of `s`?
Returns the captured digits and the length of the match.  (`\d+` is
greedy, and backtracking can never help because the character after a
shorter digit run is itself a digit, never `)`.) -/
def markerHere (s : JSString) : Option (JSString × Nat) :=
  if ("(fg:").toList.isPrefixOf s then
    if ((s.drop 4).takeWhile Char.isDigit).isEmpty then none
    else if (s.drop (4 + ((s.drop 4).takeWhile Char.isDigit).length)).take 1 = [')'] then
      some ((s.drop 4).takeWhile Char.isDigit, ((s.drop 4).takeWhile Char.isDigit).length + 5)
    else none
  else none

/-- Fuel-driven scan of `while ((match = regex.exec(text)))` with the
global regular expression `\(fg:(\d+)\)` (`main.ts` lines 222-228):
leftmost matches, resuming immediately after each match. -/
def buildDecorationsGo : Nat → Nat → JSString → List MarkerDec
  | 0, _, _ => []
  | _ + 1, _, [] => []
  | fuel + 1, pos, c :: rest =>
    match markerHere (c :: rest) with
    | some (ds, len) =>
      ⟨pos, pos + len, ds⟩ :: buildDecorationsGo fuel (pos + len) ((c :: rest).drop len)
    | none => buildDecorationsGo fuel (pos + 1) rest

/-- The marker scan of `buildDecorations` over one text buffer
(`main.ts` lines 220-231), with offsets relative to the buffer start. -/
def buildDecorations (text : JSString) : List MarkerDec :=
  buildDecorationsGo text.length 0 text

/-- The claims-list parsing of `ConnectionModal.onOpen`
(`main.ts` line 250): keep lines whose trimmed text starts with `-`, and
map each kept line through `replace(/^- /, "")` followed by `trim()`. -/
def modalClaims (text : JSString) : List JSString :=
  ((splitOnChar '\n' text).filter (fun l => ['-'].isPrefixOf (trim l))).map
    (fun l => trim (if ('-' :: [' ']).isPrefixOf l then l.drop 2 else l))

/-- The row encoder of the spec's Row Codec: the row template of
`createLink` (`main.ts` line 52) with the multi-item cell join used by
`appendRelevance`/`removeRelevanceItem`
(`" <br> "`-join, `main.ts` lines 100 and 125). -/
def encodeRow (id claim : JSString) (relevanceItems : List JSString) : JSString :=
  ("| ").toList ++ id ++ (" | ").toList ++ claim ++ (" | ").toList ++
    List.intercalate SEPARATOR relevanceItems ++ (" |").toList

/-- The row decoder of the spec's Row Codec: the per-line decoding of
`getRelevanceData` (`main.ts` lines 74-79), together with the id field. -/
def decodeRow (line : JSString) : Option (JSString × JSString × List JSString) :=
  let parts := (splitOnChar '|' line).map trim
  if 4 ≤ parts.length then
    let raw := parts.getD 3 []
    if raw = [] then some (parts.getD 1 [], parts.getD 2 [], [])
    else some (parts.getD 1 [], parts.getD 2 [],
      (splitSep raw).filter (fun s => !(trim s).isEmpty))
  else none

/-- A string is sanitized when `sanitize` fixes it: no `|`, no newline,
no surrounding whitespace. -/
def Sanitized (s : JSString) : Prop := sanitize s = s

/-- A well-formed generated id: nonempty and all digits (the source
derives it from `Date.now().toString().slice(-6)`). -/
def DigitsId (id : JSString) : Prop := id ≠ [] ∧ ∀ c ∈ id, c.isDigit = true

/-- A relevance item that the codec round-trips: sanitized, nonempty and
free of the separator token `<br>`. -/
def GoodItem (x : JSString) : Prop := Sanitized x ∧ x ≠ [] ∧ NoBr x

instance (s : JSString) : Decidable (Sanitized s) :=
  inferInstanceAs (Decidable (_ = _))

instance (s : JSString) : Decidable (NoBr s) :=
  inferInstanceAs (Decidable ¬ _)

instance (s : JSString) : Decidable (GoodItem s) :=
  inferInstanceAs (Decidable (_ ∧ _ ∧ _))

instance (s : JSString) : Decidable (DigitsId s) :=
  inferInstanceAs (Decidable (_ ∧ _))

/-- The per-line decode used by the spec's `readRow`: `decodeRow` without
the id field. -/
def decodeRowPair (line : JSString) : Option (JSString × List JSString) :=
  (decodeRow line).map (fun x => (x.2.1, x.2.2))

/-- C6's reading of `readRow`, following the claim's words: decode the
first line containing the substring `| <id> |`, `none` when no line
contains it or the file is missing. -/
def readRowFirstMatch (store : Option JSString) (id : JSString) :
    Option (JSString × List JSString) :=
  match store with
  | none => none
  | some content =>
    match (splitOnChar '\n' content).find? (fun l => includes l (rowPattern id)) with
    | none => none
    | some line => decodeRowPair line

/-- C6 amended: the scan skips matching lines with fewer than 4 fields
and decodes the first line that both contains `| <id> |` and splits into
at least 4 fields. -/
def readRowFirstDecodable (store : Option JSString) (id : JSString) :
    Option (JSString × List JSString) :=
  match store with
  | none => none
  | some content =>
    match (splitOnChar '\n' content).find?
        (fun l => includes l (rowPattern id) && decide (4 ≤ (splitOnChar '|' l).length)) with
    | none => none
    | some line => decodeRowPair line

/-- C9's reading of the claims parsing, following the claim's words: a
line is a claim exactly when it starts with `- ` (hyphen-space); the
claim is the line with that prefix removed, trimmed. -/
def claimsPerSpec (text : JSString) : List JSString :=
  ((splitOnChar '\n' text).filter (fun l => ('-' :: [' ']).isPrefixOf l)).map
    (fun l => trim (l.drop 2))

/-- C9 amended: a line is recognized exactly when its trimmed text starts
with `-` (hyphen, space not required); the claim text drops a leading
`- ` only when the raw line starts with it, then trims. -/
def claimsPerSpecAmended (text : JSString) : List JSString :=
  ((splitOnChar '\n' text).filter (fun l => decide ((trim l).take 1 = ['-']))).map
    (fun l => trim (if ('-' :: [' ']).isPrefixOf l then l.drop 2 else l))

/-- The last chunk of `removeRelevanceItem`'s cell split keeps the
cell's trailing pad space. -/
def padLast : List JSString → List JSString
  | [] => []
  | [x] => [x ++ [' ']]
  | x :: y :: xs => x :: padLast (y :: xs)

/-- The `relArray` that `removeRelevanceItem` computes from the cell of
a canonical row: the first chunk keeps the leading pad space and the
last chunk the trailing one. -/
def padArr : List JSString → List JSString
  | [] => []
  | [x] => [' ' :: (x ++ [' '])]
  | x :: y :: xs => (' ' :: x) :: padLast (y :: xs)

/-! ### Basic lemmas about the string model -/

theorem consHead_ne_nil (c : Char) (l : List JSString) : consHead c l ≠ [] := by
  cases l <;> simp [consHead]

theorem splitOnChar_ne_nil (a : Char) (s : JSString) : splitOnChar a s ≠ [] := by
  induction s with
  | nil => simp [splitOnChar]
  | cons c rest ih =>
    simp only [splitOnChar]
    split
    · simp
    · exact consHead_ne_nil _ _

theorem splitSepGo_ne_nil (fuel : Nat) (s : JSString) : splitSepGo fuel s ≠ [] := by
  induction fuel generalizing s with
  | zero => simp [splitSepGo]
  | succ fuel ih =>
    cases s with
    | nil => simp [splitSepGo]
    | cons c rest =>
      simp only [splitSepGo]
      split
      · simp
      · exact consHead_ne_nil _ _

theorem splitSep_ne_nil (s : JSString) : splitSep s ≠ [] := splitSepGo_ne_nil _ _

/-- Bridge from the boolean `List.isPrefixOf` to the `IsPrefix` relation. -/
theorem isPrefixOf_true_iff {s l : JSString} : s.isPrefixOf l = true ↔ s <+: l := by
  induction s generalizing l with
  | nil => simp [List.isPrefixOf]
  | cons a as ih =>
    cases l with
    | nil => simp [List.isPrefixOf]
    | cons b bs =>
      simp only [List.isPrefixOf, Bool.and_eq_true, beq_iff_eq, ih, List.cons_prefix_cons]

/-- An infix of a `cons` is either a prefix of it or an infix of the tail. -/
theorem infixOfCons {s : JSString} {c : Char} {t : JSString} :
    s <:+: (c :: t) ↔ s <+: (c :: t) ∨ s <:+: t := by
  constructor
  · rintro ⟨u, v, huv⟩
    cases u with
    | nil => exact Or.inl ⟨v, by simpa using huv⟩
    | cons x xs =>
      right
      refine ⟨xs, v, ?_⟩
      have := huv
      simp only [List.cons_append] at this
      exact (List.cons_eq_cons.mp this).2
  · rintro (⟨v, hv⟩ | ⟨u, v, huv⟩)
    · exact ⟨[], v, by simpa using hv⟩
    · exact ⟨c :: u, v, by simp [← huv]⟩

/-- Bridge from the boolean `includes` to the `IsInfix` relation. -/
theorem includes_true_iff {l sub : JSString} : includes l sub = true ↔ sub <:+: l := by
  induction l with
  | nil =>
    simp only [includes, List.isEmpty_iff]
    constructor
    · rintro rfl; exact ⟨[], [], rfl⟩
    · rintro ⟨u, v, huv⟩
      simp only [List.append_eq_nil] at huv
      exact huv.1.2
  | cons c t ih =>
    simp only [includes, Bool.or_eq_true, isPrefixOf_true_iff, ih, infixOfCons]

theorem includes_false_iff {l sub : JSString} : includes l sub = false ↔ ¬ sub <:+: l := by
  rw [← includes_true_iff, Bool.not_eq_true, Bool.eq_false_iff, ne_eq, Bool.not_eq_true]

/-! ### Lemmas about `ltrim`, `rtrim` and `trim` -/

theorem dropWhileIdem (p : Char → Bool) (l : JSString) :
    (l.dropWhile p).dropWhile p = l.dropWhile p := by
  induction l with
  | nil => simp
  | cons c t ih =>
    by_cases h : p c
    · simp [List.dropWhile_cons, h, ih]
    · simp [List.dropWhile_cons, h]

theorem ltrim_cons_ws {c : Char} (h : isWsChar c = true) (s : JSString) :
    ltrim (c :: s) = ltrim s := by
  simp [ltrim, List.dropWhile_cons, h]

theorem ltrim_cons_not {c : Char} (h : isWsChar c = false) (s : JSString) :
    ltrim (c :: s) = c :: s := by
  simp [ltrim, List.dropWhile_cons, h]

theorem rtrim_append_ws {c : Char} (h : isWsChar c = true) (s : JSString) :
    rtrim (s ++ [c]) = rtrim s := by
  simp [rtrim, List.dropWhile_cons, h]

theorem rtrim_append_not {c : Char} (h : isWsChar c = false) (s : JSString) :
    rtrim (s ++ [c]) = s ++ [c] := by
  simp [rtrim, List.dropWhile_cons, h]

theorem rtrim_cons_of_nil {s : JSString} (h0 : rtrim s = []) (c : Char) :
    rtrim (c :: s) = rtrim [c] := by
  have hc : List.dropWhile isWsChar s.reverse = [] := by
    have := congrArg List.reverse h0
    simpa [rtrim] using this
  rw [rtrim, List.reverse_cons, List.dropWhile_append, hc]
  simp [rtrim]

theorem rtrim_cons_of_ne {s : JSString} (h0 : rtrim s ≠ []) (c : Char) :
    rtrim (c :: s) = c :: rtrim s := by
  have hne : List.dropWhile isWsChar s.reverse ≠ [] := fun hh => h0 (by simp [rtrim, hh])
  have hc : (List.dropWhile isWsChar s.reverse).isEmpty = false :=
    Bool.eq_false_iff.mpr (fun hb => hne (List.isEmpty_iff.mp hb))
  rw [rtrim, List.reverse_cons, List.dropWhile_append, hc]
  simp [rtrim]

theorem ltrim_idem (s : JSString) : ltrim (ltrim s) = ltrim s := dropWhileIdem _ _

theorem rtrim_idem (s : JSString) : rtrim (rtrim s) = rtrim s := by
  simp [rtrim, List.reverse_reverse, dropWhileIdem]

/-- `ltrim` and `rtrim` commute. -/
theorem ltrim_rtrim_comm (s : JSString) : ltrim (rtrim s) = rtrim (ltrim s) := by
  induction s with
  | nil => simp [ltrim, rtrim]
  | cons c t ih =>
    by_cases h : isWsChar c = true
    · rw [ltrim_cons_ws h, ← ih]
      by_cases h0 : rtrim t = []
      · have hc : rtrim [c] = [] := by simp [rtrim, List.dropWhile_cons, h]
        rw [rtrim_cons_of_nil h0, hc, h0]
      · rw [rtrim_cons_of_ne h0, ltrim_cons_ws h]
    · have h' : isWsChar c = false := by simpa using h
      rw [ltrim_cons_not h']
      by_cases h0 : rtrim t = []
      · have hc : rtrim [c] = [c] := by simp [rtrim, List.dropWhile_cons, h']
        rw [rtrim_cons_of_nil h0, hc]
        exact ltrim_cons_not h' []
      · rw [rtrim_cons_of_ne h0]
        exact ltrim_cons_not h' _

theorem trim_cons_ws {c : Char} (h : isWsChar c = true) (s : JSString) :
    trim (c :: s) = trim s := by
  rw [trim, trim, ltrim_rtrim_comm, ltrim_rtrim_comm, ltrim_cons_ws h]

theorem trim_append_ws {c : Char} (h : isWsChar c = true) (s : JSString) :
    trim (s ++ [c]) = trim s := by
  rw [trim, trim, rtrim_append_ws h]

theorem trim_trim (s : JSString) : trim (trim s) = trim s := by
  show ltrim (rtrim (ltrim (rtrim s))) = ltrim (rtrim s)
  rw [← ltrim_rtrim_comm (rtrim s), rtrim_idem, ltrim_idem]

theorem ltrim_suffix (s : JSString) : ltrim s <:+ s := List.dropWhile_suffix _

theorem rtrim_sublist (s : JSString) : (rtrim s).Sublist s := by
  have h := (show s.reverse.dropWhile isWsChar <:+ s.reverse from
    List.dropWhile_suffix _).sublist
  have := h.reverse
  simpa [rtrim] using this

theorem trim_sublist (s : JSString) : (trim s).Sublist s :=
  ((ltrim_suffix (rtrim s)).sublist).trans (rtrim_sublist s)

theorem trim_subset (s : JSString) : trim s ⊆ s := (trim_sublist s).subset

/-- If `trim` fixes a string, so do `ltrim` and `rtrim`. -/
theorem ltrim_rtrim_of_trim_eq {s : JSString} (h : trim s = s) :
    ltrim s = s ∧ rtrim s = s := by
  have hlen : (trim s).length = s.length := by rw [h]
  have h1 : (trim s).length ≤ (rtrim s).length := by
    rw [trim]
    exact (ltrim_suffix (rtrim s)).sublist.length_le
  have h2 : (rtrim s).length ≤ s.length := (rtrim_sublist s).length_le
  have hr : rtrim s = s := (rtrim_sublist s).eq_of_length (by omega)
  constructor
  · have : ltrim s = trim s := by rw [trim, hr]
    rw [this, h]
  · exact hr

theorem ltrim_append_of {a : JSString} (h : ltrim a ≠ []) (b : JSString) :
    ltrim (a ++ b) = ltrim a ++ b := by
  have : (a.dropWhile isWsChar).isEmpty = false := by
    simpa [List.isEmpty_iff, ltrim] using h
  simp [ltrim, List.dropWhile_append, this]

theorem rtrim_append_of {b : JSString} (h : rtrim b ≠ []) (a : JSString) :
    rtrim (a ++ b) = a ++ rtrim b := by
  have h1 : (b.reverse.dropWhile isWsChar).isEmpty = false := by
    refine Bool.eq_false_iff.mpr (fun hb => h ?_)
    simp [rtrim, List.isEmpty_iff.mp hb]
  simp [rtrim, List.dropWhile_append, h1]

/-! ### Lemmas about `splitOnChar` and `List.intercalate` -/

theorem intercalate_single (sep : JSString) (x : JSString) :
    List.intercalate sep [x] = x := by
  simp [List.intercalate]

theorem intercalate_cons_of_ne (sep x : JSString) {xs : List JSString} (h : xs ≠ []) :
    List.intercalate sep (x :: xs) = x ++ sep ++ List.intercalate sep xs := by
  obtain ⟨y, ys, rfl⟩ := List.exists_cons_of_ne_nil h
  simp [List.intercalate, List.intersperse]

theorem intercalate_consHead (sep : JSString) (c : Char) {L : List JSString} (h : L ≠ []) :
    List.intercalate sep (consHead c L) = c :: List.intercalate sep L := by
  obtain ⟨x, xs, rfl⟩ := List.exists_cons_of_ne_nil h
  cases xs with
  | nil => simp [consHead, intercalate_single]
  | cons y ys =>
    rw [consHead, intercalate_cons_of_ne sep (c :: x) (by simp),
      intercalate_cons_of_ne sep x (by simp)]
    simp

theorem not_mem_intercalate {c : Char} {sep : JSString} {L : List JSString}
    (hsep : c ∉ sep) (h : ∀ x ∈ L, c ∉ x) : c ∉ List.intercalate sep L := by
  induction L with
  | nil => simp [List.intercalate]
  | cons x xs ih =>
    cases xs with
    | nil => simpa [intercalate_single] using h x (by simp)
    | cons y ys =>
      rw [intercalate_cons_of_ne sep _ (by simp)]
      simp only [List.mem_append, not_or]
      exact ⟨⟨h x (by simp), hsep⟩, ih (fun z hz => h z (List.mem_cons_of_mem _ hz))⟩

theorem splitOnChar_cons_eq (a : Char) (r : JSString) :
    splitOnChar a (a :: r) = [] :: splitOnChar a r := by
  simp [splitOnChar]

theorem splitOnChar_cons_ne {c a : Char} (h : c ≠ a) (r : JSString) :
    splitOnChar a (c :: r) = consHead c (splitOnChar a r) := by
  simp [splitOnChar, h]

theorem splitOnChar_of_not_mem {a : Char} {s : JSString} (h : a ∉ s) :
    splitOnChar a s = [s] := by
  induction s with
  | nil => rfl
  | cons c rest ih =>
    have hca : c ≠ a := fun hh => h (by simp [hh])
    rw [splitOnChar_cons_ne hca, ih (fun hh => h (List.mem_cons_of_mem _ hh))]
    rfl

theorem splitOnChar_append {a : Char} {l : JSString} (h : a ∉ l) (r : JSString) :
    splitOnChar a (l ++ a :: r) = l :: splitOnChar a r := by
  induction l with
  | nil => simpa using splitOnChar_cons_eq a r
  | cons c l' ih =>
    have hca : c ≠ a := fun hh => h (by simp [hh])
    rw [List.cons_append, splitOnChar_cons_ne hca,
      ih (fun hh => h (List.mem_cons_of_mem _ hh))]
    rfl

theorem intercalate_splitOnChar (a : Char) (s : JSString) :
    List.intercalate [a] (splitOnChar a s) = s := by
  induction s with
  | nil => simp [splitOnChar, List.intercalate]
  | cons c rest ih =>
    by_cases hca : c = a
    · subst hca
      rw [splitOnChar_cons_eq, intercalate_cons_of_ne _ _ (splitOnChar_ne_nil _ _), ih]
      simp
    · rw [splitOnChar_cons_ne hca, intercalate_consHead _ _ (splitOnChar_ne_nil _ _), ih]

theorem splitOnChar_not_mem_of_mem {a : Char} {s : JSString} :
    ∀ l ∈ splitOnChar a s, a ∉ l := by
  induction s with
  | nil =>
    intro l hl
    simp only [splitOnChar, List.mem_singleton] at hl
    simp [hl]
  | cons c rest ih =>
    by_cases hca : c = a
    · subst hca
      rw [splitOnChar_cons_eq]
      intro l hl
      rcases List.mem_cons.mp hl with rfl | hl
      · simp
      · exact ih l hl
    · rw [splitOnChar_cons_ne hca]
      intro l hl
      obtain ⟨h0, t0, ht⟩ := List.exists_cons_of_ne_nil (splitOnChar_ne_nil a rest)
      rw [ht] at hl
      rcases List.mem_cons.mp hl with rfl | hl
      · intro hmem
        rcases List.mem_cons.mp hmem with rfl | hmem
        · exact hca rfl
        · exact ih h0 (ht ▸ List.mem_cons_self _ _) hmem
      · exact ih l (ht ▸ List.mem_cons_of_mem _ hl)

theorem splitOnChar_intercalate {a : Char} {L : List JSString}
    (h : ∀ l ∈ L, a ∉ l) (hL : L ≠ []) :
    splitOnChar a (List.intercalate [a] L) = L := by
  induction L with
  | nil => exact absurd rfl hL
  | cons x xs ih =>
    cases xs with
    | nil => rw [intercalate_single]; exact splitOnChar_of_not_mem (h x (by simp))
    | cons y ys =>
      rw [intercalate_cons_of_ne _ _ (by simp), List.append_assoc, List.singleton_append,
        splitOnChar_append (h x (by simp)),
        ih (fun z hz => h z (List.mem_cons_of_mem _ hz)) (by simp)]

/-! ### Lemmas about `splitSep` -/

theorem SEPARATOR_eq : SEPARATOR = [' ', '<', 'b', 'r', '>', ' '] := by decide

theorem BR_eq : BR = ['<', 'b', 'r', '>'] := by decide

theorem noBr_of_cons {c : Char} {s : JSString} (h : NoBr (c :: s)) : NoBr s :=
  fun hh => h (infixOfCons.mpr (Or.inr hh))

/-- The result of `splitSepGo` does not depend on the fuel, as long as the
fuel is at least the length of the string. -/
theorem splitSepGo_fuel {fuel fuel' : Nat} {s : JSString}
    (h : s.length ≤ fuel) (h' : s.length ≤ fuel') :
    splitSepGo fuel s = splitSepGo fuel' s := by
  induction fuel generalizing s fuel' with
  | zero =>
    have hs : s = [] := List.eq_nil_of_length_eq_zero (by omega)
    subst hs
    cases fuel' <;> rfl
  | succ fuel ih =>
    cases s with
    | nil => cases fuel' <;> rfl
    | cons c rest =>
      cases fuel' with
      | zero => simp at h'
      | succ fuel'' =>
        simp only [splitSepGo]
        by_cases hp : SEPARATOR.isPrefixOf (c :: rest) = true
        · rw [if_pos hp, if_pos hp]
          have hlen : (rest.drop 5).length ≤ fuel := by
            simp only [List.length_drop]
            simp only [List.length_cons] at h
            omega
          have hlen' : (rest.drop 5).length ≤ fuel'' := by
            simp only [List.length_drop]
            simp only [List.length_cons] at h'
            omega
          rw [ih hlen hlen']
        · rw [if_neg hp, if_neg hp]
          have hlen : rest.length ≤ fuel := by
            simp only [List.length_cons] at h
            omega
          have hlen' : rest.length ≤ fuel'' := by
            simp only [List.length_cons] at h'
            omega
          rw [ih hlen hlen']

theorem splitSep_nil : splitSep [] = [[]] := rfl

theorem splitSep_cons_match {c : Char} {rest : JSString}
    (h : SEPARATOR.isPrefixOf (c :: rest) = true) :
    splitSep (c :: rest) = [] :: splitSep (rest.drop 5) := by
  rw [splitSep, splitSep]
  show splitSepGo (rest.length + 1) (c :: rest) = _
  simp only [splitSepGo, h, if_true]
  rw [splitSepGo_fuel (by simp [List.length_drop])
    (show (rest.drop 5).length ≤ (rest.drop 5).length from le_rfl)]

theorem splitSep_cons_nomatch {c : Char} {rest : JSString}
    (h : SEPARATOR.isPrefixOf (c :: rest) = false) :
    splitSep (c :: rest) = consHead c (splitSep rest) := by
  rw [splitSep, splitSep]
  show splitSepGo (rest.length + 1) (c :: rest) = _
  simp only [splitSepGo]
  rw [if_neg (by simp [h])]

/-- If the separator matches at the start of `c :: x ++ SEPARATOR ++ r`
then `c :: x` contains the token `<br>`. -/
theorem br_infix_of_sep_match {c : Char} {x r : JSString}
    (hp : SEPARATOR.isPrefixOf (c :: (x ++ SEPARATOR ++ r)) = true) :
    BR <:+: (c :: x) := by
  have hp' : SEPARATOR <+: (c :: (x ++ SEPARATOR ++ r)) := isPrefixOf_true_iff.mp hp
  rw [SEPARATOR_eq] at hp'
  rw [BR_eq]
  match x with
  | [] =>
    exfalso
    simp [List.cons_prefix_cons] at hp'
  | [a] =>
    exfalso
    simp [List.cons_prefix_cons] at hp'
  | [a, b] =>
    exfalso
    simp [List.cons_prefix_cons] at hp'
  | [a, b, d] =>
    exfalso
    simp [List.cons_prefix_cons] at hp'
  | [a, b, d, e] =>
    simp only [List.cons_append, List.nil_append, List.singleton_append,
      List.cons_prefix_cons] at hp'
    obtain ⟨h1, h2, h3, h4, h5, -⟩ := hp'
    exact ⟨[c], [], by simp [← h2, ← h3, ← h4, ← h5]⟩
  | a :: b :: d :: e :: f :: x'' =>
    simp only [List.cons_append, List.cons_prefix_cons] at hp'
    obtain ⟨h1, h2, h3, h4, h5, -⟩ := hp'
    exact ⟨[c], f :: x'', by simp [← h2, ← h3, ← h4, ← h5]⟩

/-- A string without the `<br>` token is a single chunk. -/
theorem splitSep_noBr {s : JSString} (h : NoBr s) : splitSep s = [s] := by
  induction s with
  | nil => rfl
  | cons c rest ih =>
    by_cases hp : SEPARATOR.isPrefixOf (c :: rest) = true
    · exfalso
      apply h
      have h1 : BR <:+: SEPARATOR := by rw [BR_eq, SEPARATOR_eq]; exact ⟨[' '], [' '], rfl⟩
      exact h1.trans (isPrefixOf_true_iff.mp hp).isInfix
    · rw [splitSep_cons_nomatch (Bool.eq_false_iff.mpr hp), ih (noBr_of_cons h)]
      rfl

/-- Splitting `x ++ SEPARATOR ++ r` where `x` has no `<br>` token yields
`x` as the first chunk and continues after the separator. -/
theorem splitSep_sep_append {x : JSString} (h : NoBr x) (r : JSString) :
    splitSep (x ++ SEPARATOR ++ r) = x :: splitSep r := by
  induction x with
  | nil =>
    have hshape : ([] : JSString) ++ SEPARATOR ++ r = ' ' :: (['<', 'b', 'r', '>', ' '] ++ r) := by
      rw [SEPARATOR_eq]; rfl
    have hpre : SEPARATOR.isPrefixOf (' ' :: (['<', 'b', 'r', '>', ' '] ++ r)) = true := by
      rw [← hshape]
      exact isPrefixOf_true_iff.mpr ⟨r, by simp⟩
    rw [hshape, splitSep_cons_match hpre]
    have hdrop : List.drop 5 (['<', 'b', 'r', '>', ' '] ++ r) = r := by simp
    rw [hdrop]
  | cons c x' ih =>
    have hnp : SEPARATOR.isPrefixOf (c :: (x' ++ SEPARATOR ++ r)) = false := by
      refine Bool.eq_false_iff.mpr (fun hp => h ?_)
      exact br_infix_of_sep_match hp
    rw [List.cons_append, List.cons_append, splitSep_cons_nomatch hnp,
      ih (noBr_of_cons h)]
    rfl

/-- Round trip of the in-cell join/split pair on separator-free items. -/
theorem splitSep_intercalate {items : List JSString}
    (h : ∀ x ∈ items, NoBr x) (hne : items ≠ []) :
    splitSep (List.intercalate SEPARATOR items) = items := by
  induction items with
  | nil => exact absurd rfl hne
  | cons x xs ih =>
    cases xs with
    | nil => rw [intercalate_single]; exact splitSep_noBr (h x (by simp))
    | cons y ys =>
      rw [intercalate_cons_of_ne _ _ (by simp), splitSep_sep_append (h x (by simp)),
        ih (fun z hz => h z (List.mem_cons_of_mem _ hz)) (by simp)]

/-! ### Lemmas about `sanitize` -/

theorem trim_nil : trim [] = [] := rfl

theorem trim_pad (x : JSString) : trim (' ' :: (x ++ [' '])) = trim x := by
  rw [trim_cons_ws (by decide), trim_append_ws (by decide)]

theorem sanitize_no_pipe (t : JSString) : '|' ∉ sanitize t := by
  intro hmem
  have h1 := trim_subset _ hmem
  simp only [List.mem_map] at h1
  obtain ⟨c, ⟨d, _, hd2⟩, hc2⟩ := h1
  by_cases hcn : c = '\n'
  · simp [hcn] at hc2
  · simp only [if_neg hcn] at hc2
    subst hc2
    by_cases hdp : d = '|'
    · simp [hdp] at hd2
    · simp only [if_neg hdp] at hd2
      exact hdp hd2

theorem sanitize_no_newline (t : JSString) : '\n' ∉ sanitize t := by
  intro hmem
  have h1 := trim_subset _ hmem
  simp only [List.mem_map] at h1
  obtain ⟨c, hc, hc2⟩ := h1
  by_cases hcn : c = '\n' <;> simp [hcn] at hc2

theorem trim_sanitize (t : JSString) : trim (sanitize t) = sanitize t := by
  rw [sanitize, trim_trim]

theorem sanitize_idem (t : JSString) : sanitize (sanitize t) = sanitize t := by
  conv_lhs => rw [sanitize]
  have h1 : (sanitize t).map (fun c => if c = '|' then '-' else c) = sanitize t := by
    rw [show (sanitize t).map (fun c => if c = '|' then '-' else c)
        = (sanitize t).map id from List.map_congr_left ?_, List.map_id]
    intro a ha
    have : a ≠ '|' := fun hh => sanitize_no_pipe t (hh ▸ ha)
    simp [this]
  rw [h1]
  have h2 : (sanitize t).map (fun c => if c = '\n' then ' ' else c) = sanitize t := by
    rw [show (sanitize t).map (fun c => if c = '\n' then ' ' else c)
        = (sanitize t).map id from List.map_congr_left ?_, List.map_id]
    intro a ha
    have : a ≠ '\n' := fun hh => sanitize_no_newline t (hh ▸ ha)
    simp [this]
  rw [h2, trim_sanitize]

theorem sanitized_sanitize (t : JSString) : Sanitized (sanitize t) := sanitize_idem t

theorem Sanitized.no_pipe {s : JSString} (h : Sanitized s) : '|' ∉ s := by
  rw [← h]; exact sanitize_no_pipe s

theorem Sanitized.no_newline {s : JSString} (h : Sanitized s) : '\n' ∉ s := by
  rw [← h]; exact sanitize_no_newline s

theorem Sanitized.trim_eq {s : JSString} (h : Sanitized s) : trim s = s := by
  conv_lhs => rw [← h]
  rw [trim_sanitize, h]

/-! ### Structure of encoded rows -/

theorem pipe_not_mem_SEPARATOR : '|' ∉ SEPARATOR := by rw [SEPARATOR_eq]; decide

theorem newline_not_mem_SEPARATOR : '\n' ∉ SEPARATOR := by rw [SEPARATOR_eq]; decide

theorem splitRowParts {a b cdl : JSString} (ha : '|' ∉ a) (hb : '|' ∉ b) (hc : '|' ∉ cdl) :
    splitOnChar '|' ('|' :: (a ++ '|' :: (b ++ '|' :: (cdl ++ ['|'])))) = [[], a, b, cdl, []] := by
  rw [splitOnChar_cons_eq, splitOnChar_append ha, splitOnChar_append hb,
    show cdl ++ ['|'] = cdl ++ '|' :: [] from rfl, splitOnChar_append hc]
  rfl

theorem encodeRow_shape (id claim : JSString) (items : List JSString) :
    encodeRow id claim items =
      '|' :: ((' ' :: (id ++ [' '])) ++ '|' :: ((' ' :: (claim ++ [' '])) ++
        '|' :: ((' ' :: (List.intercalate SEPARATOR items ++ [' '])) ++ ['|']))) := by
  rw [encodeRow, show ("| ").toList = ['|', ' '] from by decide,
    show (" | ").toList = [' ', '|', ' '] from by decide,
    show (" |").toList = [' ', '|'] from by decide]
  simp

theorem intercalate_ne_nil {items : List JSString} (hne : items ≠ [])
    (h : ∀ x ∈ items, x ≠ []) : List.intercalate SEPARATOR items ≠ [] := by
  obtain ⟨x, xs, rfl⟩ := List.exists_cons_of_ne_nil hne
  cases xs with
  | nil => rw [intercalate_single]; exact h x (by simp)
  | cons y ys =>
    rw [intercalate_cons_of_ne _ _ (by simp)]
    have := h x (by simp)
    simp [this]

theorem ltrim_intercalate {items : List JSString} (hne : items ≠ [])
    (h : ∀ x ∈ items, trim x = x ∧ x ≠ []) :
    ltrim (List.intercalate SEPARATOR items) = List.intercalate SEPARATOR items := by
  obtain ⟨x, xs, rfl⟩ := List.exists_cons_of_ne_nil hne
  have hx := h x (by simp)
  have hlx : ltrim x = x := (ltrim_rtrim_of_trim_eq hx.1).1
  have hlxne : ltrim x ≠ [] := by rw [hlx]; exact hx.2
  cases xs with
  | nil => rw [intercalate_single]; exact hlx
  | cons y ys =>
    rw [intercalate_cons_of_ne _ _ (by simp), List.append_assoc,
      ltrim_append_of hlxne, hlx, ← List.append_assoc]

theorem rtrim_intercalate {items : List JSString} (hne : items ≠ [])
    (h : ∀ x ∈ items, trim x = x ∧ x ≠ []) :
    rtrim (List.intercalate SEPARATOR items) = List.intercalate SEPARATOR items := by
  induction items with
  | nil => exact absurd rfl hne
  | cons x xs ih =>
    have hx := h x (by simp)
    cases xs with
    | nil => rw [intercalate_single]; exact (ltrim_rtrim_of_trim_eq hx.1).2
    | cons y ys =>
      have hJ : rtrim (List.intercalate SEPARATOR (y :: ys)) =
          List.intercalate SEPARATOR (y :: ys) :=
        ih (by simp) (fun z hz => h z (List.mem_cons_of_mem _ hz))
      have hJne : List.intercalate SEPARATOR (y :: ys) ≠ [] :=
        intercalate_ne_nil (by simp) (fun z hz => (h z (List.mem_cons_of_mem _ hz)).2)
      have hSJ : rtrim (SEPARATOR ++ List.intercalate SEPARATOR (y :: ys)) =
          SEPARATOR ++ List.intercalate SEPARATOR (y :: ys) := by
        rw [rtrim_append_of (by rw [hJ]; exact hJne), hJ]
      rw [intercalate_cons_of_ne _ _ (by simp), List.append_assoc,
        rtrim_append_of (by rw [hSJ]; simp [SEPARATOR_eq]), hSJ, ← List.append_assoc]

theorem trim_intercalate {items : List JSString} (hne : items ≠ [])
    (h : ∀ x ∈ items, trim x = x ∧ x ≠ []) :
    trim (List.intercalate SEPARATOR items) = List.intercalate SEPARATOR items := by
  rw [trim, rtrim_intercalate hne h, ltrim_intercalate hne h]

/-- Decoding the encoded row: the `parts` list after split and trim. -/
theorem encodeRow_parts {id claim : JSString} (items : List JSString)
    (hid : Sanitized id) (hclaim : Sanitized claim)
    (hitems : ∀ x ∈ items, GoodItem x) :
    (splitOnChar '|' (encodeRow id claim items)).map trim =
      [[], id, claim, trim (List.intercalate SEPARATOR items), []] := by
  have hidp : '|' ∉ ' ' :: (id ++ [' ']) := by
    intro h
    rcases List.mem_cons.mp h with h | h
    · exact absurd h.symm (by decide)
    · rcases List.mem_append.mp h with h | h
      · exact hid.no_pipe h
      · exact absurd (List.mem_singleton.mp h).symm (by decide)
  have hclp : '|' ∉ ' ' :: (claim ++ [' ']) := by
    intro h
    rcases List.mem_cons.mp h with h | h
    · exact absurd h.symm (by decide)
    · rcases List.mem_append.mp h with h | h
      · exact hclaim.no_pipe h
      · exact absurd (List.mem_singleton.mp h).symm (by decide)
  have hcellp : '|' ∉ ' ' :: (List.intercalate SEPARATOR items ++ [' ']) := by
    intro h
    rcases List.mem_cons.mp h with h | h
    · exact absurd h.symm (by decide)
    · rcases List.mem_append.mp h with h | h
      · exact not_mem_intercalate pipe_not_mem_SEPARATOR
          (fun x hx => (hitems x hx).1.no_pipe) h
      · exact absurd (List.mem_singleton.mp h).symm (by decide)
  rw [encodeRow_shape, splitRowParts hidp hclp hcellp]
  simp only [List.map_cons, List.map_nil, trim_nil, trim_pad, hid.trim_eq, hclaim.trim_eq]

/-- `decodeRow` on a line whose parts have the canonical five-field
shape. -/
theorem decodeRow_parts_eq {line i cl cell : JSString}
    (h : (splitOnChar '|' line).map trim = [[], i, cl, cell, []]) :
    decodeRow line =
      if cell = [] then some (i, cl, [])
      else some (i, cl, (splitSep cell).filter (fun s => !(trim s).isEmpty)) := by
  simp only [decodeRow]
  rw [h, show ([[], i, cl, cell, []] : List JSString).length = 5 from rfl,
    if_pos (by norm_num),
    show ([[], i, cl, cell, []] : List JSString).getD 3 [] = cell from rfl,
    show ([[], i, cl, cell, []] : List JSString).getD 2 [] = cl from rfl,
    show ([[], i, cl, cell, []] : List JSString).getD 1 [] = i from rfl]

/-- Round trip of the row codec on sanitized id and claim and on
sanitized, nonempty, separator-free items. -/
theorem decodeRow_encodeRow (id claim : JSString) (items : List JSString)
    (hid : Sanitized id) (hclaim : Sanitized claim)
    (hitems : ∀ x ∈ items, GoodItem x) :
    decodeRow (encodeRow id claim items) = some (id, claim, items) := by
  rw [decodeRow_parts_eq (encodeRow_parts items hid hclaim hitems)]
  cases items with
  | nil =>
    rw [show List.intercalate SEPARATOR ([] : List JSString) = [] from by
        simp [List.intercalate], trim_nil, if_pos rfl]
  | cons x xs =>
    have hne : x :: xs ≠ [] := by simp
    have htr : ∀ z ∈ x :: xs, trim z = z ∧ z ≠ [] :=
      fun z hz => ⟨((hitems z hz).1).trim_eq, (hitems z hz).2.1⟩
    have hcne : List.intercalate SEPARATOR (x :: xs) ≠ [] :=
      intercalate_ne_nil hne (fun z hz => (htr z hz).2)
    rw [trim_intercalate hne htr, if_neg hcne,
      splitSep_intercalate (fun z hz => (hitems z hz).2.2) hne,
      List.filter_eq_self.mpr ?_]
    intro z hz
    have := htr z hz
    simp [List.isEmpty_iff, this.1, this.2]

/-- C1, amended: round trip of the row codec on sanitized id and claim
and on sanitized, nonempty items that are free of the separator token
`<br>`. -/
theorem c1_codec_roundtrip (id claim : JSString) (items : List JSString)
    (hid : Sanitized id) (hclaim : Sanitized claim)
    (hitems : ∀ x ∈ items, GoodItem x) :
    decodeRow (encodeRow id claim items) = some (id, claim, items) :=
  decodeRow_encodeRow id claim items hid hclaim hitems

/-- Witness for C1: a concrete round trip. -/
theorem c1_codec_roundtrip_witness :
    decodeRow (encodeRow ("123456").toList ("Claim A").toList
        [("Reason 1").toList, ("Reason 2").toList]) =
      some (("123456").toList, ("Claim A").toList,
        [("Reason 1").toList, ("Reason 2").toList]) :=
  c1_codec_roundtrip _ _ _ (by decide) (by decide) (by decide)

/-- Counterexample for C1 as stated: the item `"a <br> b"` is sanitized
and nonempty, yet the round trip splits it into two items. -/
theorem c1_codec_counterexample :
    Sanitized (("a <br> b").toList) ∧ ("a <br> b").toList ≠ [] ∧
      decodeRow (encodeRow ("123456").toList ("c").toList [("a <br> b").toList]) ≠
        some (("123456").toList, ("c").toList, [("a <br> b").toList]) := by
  refine ⟨by decide, by decide, ?_⟩
  decide

/-- C5: `deleteRow` removes every line containing `| id |` — not just the
first — and writes the remaining lines back byte-identical, in their
original relative order (stated as: the result is the filtered line
list, no remaining line contains the pattern, the remaining lines form a
sublist of the original lines, and every line without the pattern keeps
its multiplicity). -/
theorem c5_delete_row (c id : JSString) :
    deleteConnection (some c) id =
      some (List.intercalate ['\n']
        ((splitOnChar '\n' c).filter (fun l => !includes l (rowPattern id)))) ∧
    (∀ l ∈ (splitOnChar '\n' c).filter (fun l => !includes l (rowPattern id)),
      ¬ rowPattern id <:+: l) ∧
    ((splitOnChar '\n' c).filter (fun l => !includes l (rowPattern id))).Sublist
      (splitOnChar '\n' c) ∧
    (∀ l, ¬ rowPattern id <:+: l →
      List.count l ((splitOnChar '\n' c).filter (fun l => !includes l (rowPattern id)))
        = List.count l (splitOnChar '\n' c)) := by
  refine ⟨rfl, ?_, List.filter_sublist _, ?_⟩
  · intro l hl
    have h2 := (List.mem_filter.mp hl).2
    have h3 : includes l (rowPattern id) = false := by
      simpa using h2
    exact includes_false_iff.mp h3
  · intro l hl
    refine List.count_filter ?_
    have h3 : includes l (rowPattern id) = false := includes_false_iff.mpr hl
    simp [h3]

/-- Witness for C5: deleting id `123456` removes both matching rows and
keeps the other row byte-identical. -/
theorem c5_delete_row_witness :
    deleteConnection
        (some ("| 123456 | a | x |\n| 777777 | b | y |\n| 123456 | c | z |").toList)
        ("123456").toList = some (("| 777777 | b | y |").toList) ∧
      List.count (("| 777777 | b | y |").toList)
          ((splitOnChar '\n'
              ("| 123456 | a | x |\n| 777777 | b | y |\n| 123456 | c | z |").toList).filter
            (fun l => !includes l (rowPattern ("123456").toList)))
        = List.count (("| 777777 | b | y |").toList)
            (splitOnChar '\n'
              ("| 123456 | a | x |\n| 777777 | b | y |\n| 123456 | c | z |").toList) :=
  ⟨((c5_delete_row _ _).1).trans (by decide),
    (c5_delete_row _ _).2.2.2 _ (by decide)⟩

/-- The head case of the scan when the line matches and has at least 4
fields: the loop returns exactly the pair decode of that line. -/
theorem getRelevanceLoop_head {id line : JSString} (rest : List JSString)
    (hm : includes line (rowPattern id) = true)
    (hlen : 4 ≤ (splitOnChar '|' line).length) :
    getRelevanceLoop id (line :: rest) = decodeRowPair line := by
  have hlen' : 4 ≤ ((splitOnChar '|' line).map trim).length := by
    simpa using hlen
  simp only [getRelevanceLoop, decodeRowPair, decodeRow, hm, if_true, if_pos hlen']
  by_cases hraw : ((splitOnChar '|' line).map trim).getD 3 [] = []
  · rw [if_pos hraw, if_pos hraw]
    rfl
  · rw [if_neg hraw, if_neg hraw]
    rfl

/-- C6, amended: `readRow` returns the decoded content of the first line
that contains `| <id> |` and splits into at least 4 fields (malformed
matching lines are skipped), and `none` when there is no such line or
the store file is missing. -/
theorem c6_read_row (store : Option JSString) (id : JSString) :
    getRelevanceData store id = readRowFirstDecodable store id := by
  cases store with
  | none => rfl
  | some content =>
    show getRelevanceLoop id (splitOnChar '\n' content) = _
    simp only [readRowFirstDecodable]
    induction splitOnChar '\n' content with
    | nil => rfl
    | cons line rest ih =>
      by_cases hm : includes line (rowPattern id) = true
      · by_cases hlen : 4 ≤ (splitOnChar '|' line).length
        · rw [getRelevanceLoop_head rest hm hlen,
            List.find?_cons_of_pos _ (by simp [hm, hlen])]
        · have hlen' : ¬ 4 ≤ ((splitOnChar '|' line).map trim).length := by
            simpa using hlen
          rw [List.find?_cons_of_neg _ (by simp [hlen]), ← ih]
          simp only [getRelevanceLoop, hm, if_true, if_neg hlen']
      · have hm' : includes line (rowPattern id) = false := by
          simpa using hm
        rw [List.find?_cons_of_neg _ (by simp [hm']), ← ih]
        simp only [getRelevanceLoop, hm', Bool.false_eq_true, if_false]

/-- Counterexample for C6 as stated: with a malformed matching line
before a well-formed one, the code skips the malformed line and decodes
the second, whereas decoding the first matching line yields nothing. -/
theorem c6_read_row_counterexample :
    getRelevanceData (some (("| 123456 |\n| 123456 | c | x |").toList)) (("123456").toList) ≠
      readRowFirstMatch (some (("| 123456 |\n| 123456 | c | x |").toList)) (("123456").toList) := by
  decide

theorem isPrefixOf_dash (x : JSString) :
    ['-'].isPrefixOf x = decide (x.take 1 = ['-']) := by
  cases x with
  | nil => rfl
  | cons c t =>
    by_cases hc : c = '-'
    · subst hc
      simp [List.isPrefixOf]
    · simp [List.isPrefixOf, hc]
      intro hh
      exact absurd hh.symm hc

/-- C9, amended: the claims-list parsing recognizes exactly the lines
whose trimmed text starts with `-`, and keeps each such line with a
leading raw `- ` removed (when present) and surrounding whitespace
trimmed. -/
theorem c9_claims_parsing (text : JSString) :
    modalClaims text = claimsPerSpecAmended text := by
  rw [modalClaims, claimsPerSpecAmended]
  congr 1
  exact List.filter_congr (fun l _ => isPrefixOf_dash (trim l))

/-- Counterexample for C9 as stated: the line `-abc` (no space after the
hyphen) is ignored by the claim's reading but recognized by the code. -/
theorem c9_claims_counterexample :
    modalClaims (("-abc").toList) ≠ claimsPerSpec (("-abc").toList) := by
  decide

/-- C7: the delete-connection marker stripping edits only the first line
containing the marker: lines without the marker are left untouched, the
first matching line is rewritten by the substitution, stripping stops
there, and later lines are returned verbatim.  On the example line
`"  text (fg:123) more"` the substitution removes the marker together
with the run of horizontal whitespace immediately preceding it. -/
theorem c7_marker_strip :
    (∀ (id : JSString) (lines : List JSString),
        (∀ l ∈ lines, includes l (markerPattern id) = false) →
        deleteConnectionStrip id lines = lines) ∧
    (∀ (id : JSString) (pre : List JSString) (line : JSString) (post : List JSString),
        (∀ l ∈ pre, includes l (markerPattern id) = false) →
        includes line (markerPattern id) = true →
        deleteConnectionStrip id (pre ++ line :: post) = pre ++ stripLine id line :: post) ∧
    stripLine (("123").toList) (("  text (fg:123) more").toList) = ("  text more").toList := by
  refine ⟨?_, ?_, by decide⟩
  · intro id lines h
    induction lines with
    | nil => rfl
    | cons l rest ih =>
      rw [deleteConnectionStrip, if_neg (by simp [h l (by simp)]),
        ih (fun z hz => h z (List.mem_cons_of_mem _ hz))]
  · intro id pre line post hpre hline
    induction pre with
    | nil =>
      simp only [List.nil_append]
      rw [deleteConnectionStrip, if_pos hline]
    | cons p pre' ih =>
      simp only [List.cons_append]
      rw [deleteConnectionStrip, if_neg (by simp [hpre p (by simp)]),
        ih (fun z hz => hpre z (List.mem_cons_of_mem _ hz))]

/-- Witness for C7: a document where the marker occurs on the second and
third lines; only the second line is stripped (both occurrences on it, by
the global flag), the third is untouched. -/
theorem c7_marker_strip_witness :
    deleteConnectionStrip (("9").toList)
        [("x").toList, ("a (fg:9) b (fg:9)").toList, ("c (fg:9) d").toList] =
      [("x").toList, ("a b").toList, ("c (fg:9) d").toList] :=
  (c7_marker_strip.2.1 (("9").toList) [("x").toList] (("a (fg:9) b (fg:9)").toList)
      [("c (fg:9) d").toList] (by decide) (by decide)).trans (by decide)

/-- `dropWhile` is `drop` of the `takeWhile` length. -/
theorem dropWhile_eq_drop (p : Char → Bool) (l : JSString) :
    l.dropWhile p = l.drop (l.takeWhile p).length := by
  induction l with
  | nil => rfl
  | cons c t ih =>
    by_cases hc : p c
    · simp [List.dropWhile_cons, List.takeWhile_cons, hc, ih]
    · simp [List.dropWhile_cons, List.takeWhile_cons, hc]

/-- What a successful `markerHere` match means: the string starts with
the exact marker text `(fg:<digits>)`, whose length is the reported
match length. -/
theorem markerHere_spec {s ds : JSString} {len : Nat}
    (h : markerHere s = some (ds, len)) :
    ds ≠ [] ∧ (∀ c ∈ ds, c.isDigit = true) ∧ len = ds.length + 5 ∧
      s.take len = markerPattern ds ∧ len ≤ s.length := by
  by_cases hp : ("(fg:").toList.isPrefixOf s = true
  case neg =>
    rw [markerHere, if_neg hp] at h
    exact absurd h (by simp)
  case pos =>
  obtain ⟨t, ht0⟩ := isPrefixOf_true_iff.mp hp
  subst ht0
  have hlen4 : (("(fg:").toList).length = 4 := by decide
  have hdrop4 : (("(fg:").toList ++ t).drop 4 = t := by rw [← hlen4, List.drop_left]
  rw [markerHere, if_pos hp, hdrop4] at h
  by_cases he : (t.takeWhile Char.isDigit).isEmpty = true
  case pos => rw [if_pos he] at h; exact absurd h (by simp)
  case neg =>
  rw [if_neg he] at h
  have hdropn : (("(fg:").toList ++ t).drop (4 + (t.takeWhile Char.isDigit).length) =
      t.dropWhile Char.isDigit := by
    rw [← List.drop_drop, hdrop4, dropWhile_eq_drop]
  rw [hdropn] at h
  by_cases ht : (t.dropWhile Char.isDigit).take 1 = [')']
  case neg => rw [if_neg ht] at h; exact absurd h (by simp)
  case pos =>
  rw [if_pos ht] at h
  simp only [Option.some.injEq, Prod.mk.injEq] at h
  obtain ⟨rfl, rfl⟩ := h
  obtain ⟨rest, hrest⟩ : ∃ rest, t.dropWhile Char.isDigit = ')' :: rest := by
    rcases hdw : t.dropWhile Char.isDigit with _ | ⟨c, rest⟩
    · rw [hdw] at ht; simp at ht
    · rw [hdw, show (c :: rest).take 1 = [c] from rfl] at ht
      obtain ⟨h1, -⟩ := List.cons_eq_cons.mp ht
      exact ⟨rest, by rw [h1]⟩

  set dst := t.takeWhile Char.isDigit with hds
  have hts : t = dst ++ ')' :: rest := by
    conv_lhs => rw [← List.takeWhile_append_dropWhile Char.isDigit t]
    rw [hrest]
  refine ⟨by simpa [List.isEmpty_iff] using he,
    fun c hc => List.mem_takeWhile_imp (hds ▸ hc), rfl, ?_, ?_⟩
  · rw [hts, show dst.length + 5 = (("(fg:").toList).length + (dst.length + 1) from by
      rw [hlen4]; omega, List.take_append, List.take_append 1, markerPattern,
      show (")").toList = [')'] from by decide]
    simp
  · rw [hts]
    simp only [List.length_append, List.length_cons, hlen4]
    omega

/-- Soundness and ordering of the fuel-driven marker scan, relative to
the scanned suffix. -/
theorem buildDecorationsGo_sound (fuel : Nat) :
    ∀ (pos : Nat) (s : JSString), ∀ m ∈ buildDecorationsGo fuel pos s,
      pos ≤ m.startOffset ∧ m.startOffset < m.endOffset ∧
      m.endOffset ≤ pos + s.length ∧
      (s.drop (m.startOffset - pos)).take (m.endOffset - m.startOffset) = markerPattern m.id ∧
      m.id ≠ [] ∧ ∀ c ∈ m.id, c.isDigit = true := by
  induction fuel with
  | zero => intro pos s m hm; simp [buildDecorationsGo] at hm
  | succ fuel ih =>
    intro pos s m hm
    cases s with
    | nil => simp [buildDecorationsGo] at hm
    | cons c rest =>
      rcases hmk : markerHere (c :: rest) with _ | ⟨ds, len⟩
      · rw [buildDecorationsGo, hmk] at hm
        obtain ⟨h1, h2, h3, h4, h5, h6⟩ := ih (pos + 1) rest m hm
        refine ⟨by omega, h2, ?_, ?_, h5, h6⟩
        · simp only [List.length_cons]
          omega
        · have hD : (c :: rest).drop (m.startOffset - pos) =
              rest.drop (m.startOffset - (pos + 1)) := by
            rw [show m.startOffset - pos = 1 + (m.startOffset - (pos + 1)) from by omega,
              ← List.drop_drop]
            rfl
          rw [hD]
          exact h4
      · rw [buildDecorationsGo, hmk] at hm
        obtain ⟨hne, hdig, hlen5, htake, hle⟩ := markerHere_spec hmk
        rcases List.mem_cons.mp hm with rfl | hm
        · refine ⟨le_rfl, ?_, ?_, ?_, hne, hdig⟩
          · show pos < pos + len
            omega
          · show pos + len ≤ pos + (c :: rest).length
            omega
          · show ((c :: rest).drop (pos - pos)).take (pos + len - pos) = markerPattern ds
            rw [Nat.sub_self, List.drop_zero, Nat.add_sub_cancel_left]
            exact htake
        · obtain ⟨h1, h2, h3, h4, h5, h6⟩ := ih (pos + len) ((c :: rest).drop len) m hm
          refine ⟨by omega, h2, ?_, ?_, h5, h6⟩
          · simp only [List.length_drop] at h3
            omega
          · have hD : (c :: rest).drop (m.startOffset - pos) =
                ((c :: rest).drop len).drop (m.startOffset - (pos + len)) := by
              rw [show m.startOffset - pos = len + (m.startOffset - (pos + len)) from by omega,
                ← List.drop_drop]
            rw [hD]
            exact h4

theorem buildDecorationsGo_chain (fuel : Nat) :
    ∀ (pos : Nat) (s : JSString),
      List.Chain' (fun a b => a.endOffset ≤ b.startOffset) (buildDecorationsGo fuel pos s) := by
  induction fuel with
  | zero => intro pos s; simp [buildDecorationsGo]
  | succ fuel ih =>
    intro pos s
    cases s with
    | nil => simp [buildDecorationsGo]
    | cons c rest =>
      rcases hmk : markerHere (c :: rest) with _ | ⟨ds, len⟩
      · rw [buildDecorationsGo, hmk]
        exact ih (pos + 1) rest
      · rw [buildDecorationsGo, hmk]
        rw [List.chain'_cons']
        refine ⟨fun y hy => ?_, ih _ _⟩
        have hym : y ∈ buildDecorationsGo fuel (pos + len) ((c :: rest).drop len) :=
          List.mem_of_mem_head? hy
        exact (buildDecorationsGo_sound fuel _ _ y hym).1

/-- C8: the marker scan yields exactly the non-overlapping leftmost
matches of `(fg:` digits `)`: every reported decoration spans the exact
marker text at its offsets with a nonempty digit id, consecutive matches
do not overlap (scanning resumes right after each match), and on
`"start (fg:123)(fg:456) end"` the scan reports exactly the two adjacent
markers with ids `123` and `456`. -/
theorem c8_marker_scan :
    (∀ (text : JSString), ∀ m ∈ buildDecorations text,
        m.startOffset < m.endOffset ∧ m.endOffset ≤ text.length ∧
        (text.drop m.startOffset).take (m.endOffset - m.startOffset) = markerPattern m.id ∧
        m.id ≠ [] ∧ ∀ c ∈ m.id, c.isDigit = true) ∧
    (∀ (text : JSString),
        List.Chain' (fun a b => a.endOffset ≤ b.startOffset) (buildDecorations text)) ∧
    buildDecorations (("start (fg:123)(fg:456) end").toList) =
      [⟨6, 14, ("123").toList⟩, ⟨14, 22, ("456").toList⟩] := by
  refine ⟨fun text m hm => ?_, fun text => buildDecorationsGo_chain _ 0 text, by decide⟩
  obtain ⟨h1, h2, h3, h4, h5, h6⟩ := buildDecorationsGo_sound text.length 0 text m hm
  exact ⟨h2, by simpa using h3, by simpa using h4, h5, h6⟩

/-- Witness for C8: the scan of the example text, with the soundness
facts instantiated on its first reported marker. -/
theorem c8_marker_scan_witness :
    buildDecorations (("start (fg:123)(fg:456) end").toList) =
      [⟨6, 14, ("123").toList⟩, ⟨14, 22, ("456").toList⟩] ∧
    ((("start (fg:123)(fg:456) end").toList).drop 6).take 8 =
      markerPattern (("123").toList) :=
  ⟨c8_marker_scan.2.2,
    by
      have h := c8_marker_scan.1 (("start (fg:123)(fg:456) end").toList)
        ⟨6, 14, ("123").toList⟩ (by rw [c8_marker_scan.2.2]; simp)
      simpa using h.2.2.1⟩

/-! ### Helper lemmas for the store operations -/

theorem ltrim_eq_self_of_all {s : JSString} (h : ∀ c ∈ s, isWsChar c = false) :
    ltrim s = s := by
  cases s with
  | nil => rfl
  | cons c t => exact ltrim_cons_not (h c (by simp)) t

theorem rtrim_eq_self_of_all {s : JSString} (h : ∀ c ∈ s, isWsChar c = false) :
    rtrim s = s := by
  rw [rtrim, show s.reverse.dropWhile isWsChar = ltrim s.reverse from rfl,
    ltrim_eq_self_of_all (fun c hc => h c (List.mem_reverse.mp hc)), List.reverse_reverse]

theorem trim_eq_self_of_all {s : JSString} (h : ∀ c ∈ s, isWsChar c = false) :
    trim s = s := by
  rw [trim, rtrim_eq_self_of_all h, ltrim_eq_self_of_all h]

theorem isWsChar_eq_false_of_digit {c : Char} (h : c.isDigit = true) :
    isWsChar c = false := by
  rcases hc : isWsChar c with _ | _
  · rfl
  · exfalso
    have : ((c = ' ' ∨ c = '\t') ∨ c = '\n') ∨ c = '\r' := by
      simpa [isWsChar] using hc
    rcases this with ((rfl | rfl) | rfl) | rfl <;> exact absurd h (by decide)

theorem digitsId_trim_eq {id : JSString} (h : DigitsId id) : trim id = id :=
  trim_eq_self_of_all (fun c hc => isWsChar_eq_false_of_digit (h.2 c hc))

theorem digitsId_no_pipe {id : JSString} (h : DigitsId id) : '|' ∉ id := by
  intro hc
  exact absurd (h.2 '|' hc) (by decide)

theorem digitsId_no_newline {id : JSString} (h : DigitsId id) : '\n' ∉ id := by
  intro hc
  exact absurd (h.2 '\n' hc) (by decide)

/-- A line with no digits cannot contain the pattern `| id |` of a
digit id. -/
theorem not_includes_of_digit_free {l id : JSString} (hid : DigitsId id)
    (hl : ∀ c ∈ l, c.isDigit = false) :
    includes l (rowPattern id) = false := by
  rw [includes_false_iff]
  rintro hinf
  obtain ⟨c0, id', rfl⟩ := List.exists_cons_of_ne_nil hid.1
  have hc0 : c0 ∈ rowPattern (c0 :: id') := by
    rw [rowPattern]
    simp
  have := hinf.subset hc0
  exact absurd (hid.2 c0 (by simp)) (by simp [hl c0 this])

/-- Skipping a non-matching line in the read scan. -/
theorem getRelevanceLoop_skip {id line : JSString} (rest : List JSString)
    (h : includes line (rowPattern id) = false) :
    getRelevanceLoop id (line :: rest) = getRelevanceLoop id rest := by
  simp only [getRelevanceLoop, h, Bool.false_eq_true, if_false]

/-- The head lines of the store file created by `createLink`. -/
theorem splitOnChar_header (X : JSString) :
    splitOnChar '\n' (HEADER ++ X) =
      [("---").toList, ("cssclasses: fg-database").toList, ("---").toList, [],
        ("| ID | Claim | Relevance |").toList, ("|---|---|---|").toList] ++
        splitOnChar '\n' X := by
  rw [show HEADER ++ X = ("---").toList ++ '\n' :: (("cssclasses: fg-database").toList ++
      '\n' :: (("---").toList ++ '\n' :: (([] : JSString) ++ '\n' ::
      (("| ID | Claim | Relevance |").toList ++ '\n' ::
      (("|---|---|---|").toList ++ '\n' :: X))))) from rfl,
    splitOnChar_append (by decide), splitOnChar_append (by decide),
    splitOnChar_append (by decide), splitOnChar_append (by decide),
    splitOnChar_append (by decide), splitOnChar_append (by decide)]
  rfl

/-- C2: `createLink` on an absent store writes the fixed header followed
by exactly one data row whose claim is the (sanitized) claim `Claim A`
and whose cell is `Reason 1`; reading the fresh id back returns that
claim with the one-element item list. -/
theorem c2_create_row (id : JSString) (hid : DigitsId id) :
    createLink none id (("Claim A").toList) (("Reason 1").toList) =
      HEADER ++ (("| ").toList ++ id ++ (" | Claim A | Reason 1 |\n").toList) ∧
    getRelevanceData
        (some (createLink none id (("Claim A").toList) (("Reason 1").toList))) id =
      some (("Claim A").toList, [("Reason 1").toList]) := by
  have hC : sanitize (("Claim A").toList) = ("Claim A").toList := by decide
  have hR : sanitize (("Reason 1").toList) = ("Reason 1").toList := by decide
  have hfile : createLink none id (("Claim A").toList) (("Reason 1").toList) =
      HEADER ++ (("| ").toList ++ id ++ (" | Claim A | Reason 1 |\n").toList) := by
    show HEADER ++ (("| ").toList ++ id ++ (" | ").toList ++ sanitize (("Claim A").toList) ++
        (" | ").toList ++ sanitize (("Reason 1").toList) ++ (" |\n").toList) = _
    rw [hC, hR]
    simp only [List.append_assoc]
    congr 2
  refine ⟨hfile, ?_⟩
  rw [hfile, getRelevanceData]
  have hrowcore : ("| ").toList ++ id ++ (" | Claim A | Reason 1 |\n").toList =
      (("| ").toList ++ id ++ (" | Claim A | Reason 1 |").toList) ++ ['\n'] := by
    simp only [List.append_assoc]
    congr 2
  rw [hrowcore, splitOnChar_header,
    show (("| ").toList ++ id ++ (" | Claim A | Reason 1 |").toList) ++ ['\n'] =
      (("| ").toList ++ id ++ (" | Claim A | Reason 1 |").toList) ++ '\n' :: [] from rfl,
    splitOnChar_append ?hnl]
  case hnl =>
    intro hmem
    rcases List.mem_append.mp hmem with hmem | hmem
    · rcases List.mem_append.mp hmem with hmem | hmem
      · exact absurd hmem (by decide)
      · exact (digitsId_no_newline hid) hmem
    · exact absurd hmem (by decide)
  simp only [List.cons_append, List.nil_append]
  rw [getRelevanceLoop_skip _ (not_includes_of_digit_free hid (by decide)),
    getRelevanceLoop_skip _ (not_includes_of_digit_free hid (by decide)),
    getRelevanceLoop_skip _ (not_includes_of_digit_free hid (by decide)),
    getRelevanceLoop_skip _ (not_includes_of_digit_free hid (by decide)),
    getRelevanceLoop_skip _ (not_includes_of_digit_free hid (by decide)),
    getRelevanceLoop_skip _ (not_includes_of_digit_free hid (by decide))]
  have hrow_shape : ("| ").toList ++ id ++ (" | Claim A | Reason 1 |").toList =
      '|' :: ((' ' :: (id ++ [' '])) ++ '|' :: ((' ' :: (("Claim A").toList ++ [' '])) ++
        '|' :: ((' ' :: (("Reason 1").toList ++ [' '])) ++ ['|']))) := by
    rw [show (" | Claim A | Reason 1 |").toList = [' '] ++ '|' ::
        ((' ' :: (("Claim A").toList ++ [' '])) ++ '|' ::
          ((' ' :: (("Reason 1").toList ++ [' '])) ++ ['|'])) from by decide]
    simp [List.append_assoc]
  have hinc : includes (("| ").toList ++ id ++ (" | Claim A | Reason 1 |").toList)
      (rowPattern id) = true := by
    rw [includes_true_iff]
    refine (isPrefixOf_true_iff.mp ?_).isInfix
    rw [isPrefixOf_true_iff]
    refine ⟨(" Claim A | Reason 1 |").toList, ?_⟩
    rw [rowPattern]
    simp only [List.append_assoc]
    congr 2
  have hparts : (splitOnChar '|'
      (("| ").toList ++ id ++ (" | Claim A | Reason 1 |").toList)).map trim =
      [[], id, ("Claim A").toList, ("Reason 1").toList, []] := by
    rw [hrow_shape, splitRowParts ?ha ?hb ?hc]
    case ha =>
      intro hmem
      rcases List.mem_cons.mp hmem with hmem | hmem
      · exact absurd hmem.symm (by decide)
      · rcases List.mem_append.mp hmem with hmem | hmem
        · exact (digitsId_no_pipe hid) hmem
        · exact absurd hmem (by decide)
    case hb => decide
    case hc => decide
    simp only [List.map_cons, List.map_nil, trim_nil, trim_pad, (digitsId_trim_eq hid)]
    rw [show trim (("Claim A").toList) = ("Claim A").toList from by decide,
      show trim (("Reason 1").toList) = ("Reason 1").toList from by decide]
  have hlen5 : (splitOnChar '|'
      (("| ").toList ++ id ++ (" | Claim A | Reason 1 |").toList)).length = 5 := by
    have := congrArg List.length hparts
    simpa using this
  rw [getRelevanceLoop_head _ hinc (by omega)]
  rw [decodeRowPair, decodeRow_parts_eq hparts, if_neg (by decide)]
  rw [show (splitSep (("Reason 1").toList)).filter (fun s => !(trim s).isEmpty) =
    [("Reason 1").toList] from by decide]
  rfl

/-- Witness for C2 at the concrete id `123456`. -/
theorem c2_create_row_witness :
    createLink none (("123456").toList) (("Claim A").toList) (("Reason 1").toList) =
      HEADER ++ (("| ").toList ++ ("123456").toList ++ (" | Claim A | Reason 1 |\n").toList) ∧
    getRelevanceData
        (some (createLink none (("123456").toList) (("Claim A").toList)
          (("Reason 1").toList))) (("123456").toList) =
      some (("Claim A").toList, [("Reason 1").toList]) :=
  c2_create_row (("123456").toList) (by decide)

/-! ### Helper lemmas for the item-edit operations -/

theorem noBr_cons_space {x : JSString} (h : NoBr x) : NoBr (' ' :: x) := by
  intro hinf
  rcases infixOfCons.mp hinf with hpre | hinf2
  · rw [BR_eq] at hpre
    simp [List.cons_prefix_cons] at hpre
  · exact h hinf2

theorem noBr_append_space {x : JSString} (h : NoBr x) : NoBr (x ++ [' ']) := by
  rintro ⟨u, v, huv⟩
  rcases List.eq_nil_or_concat v with rfl | ⟨v', cv, rfl⟩
  · rw [BR_eq] at huv
    have huv' : (u ++ ['<', 'b', 'r']) ++ ['>'] = x ++ [' '] := by
      rw [← huv]; simp
    obtain ⟨-, h2⟩ := List.append_inj' huv' (by simp)
    exact absurd (List.cons_eq_cons.mp h2).1 (by decide)
  · have huv' : (u ++ BR ++ v') ++ [cv] = x ++ [' '] := by
      rw [← huv]; simp [List.concat_eq_append]
    obtain ⟨h1, -⟩ := List.append_inj' huv' (by simp)
    exact h ⟨u, v', by simpa using h1⟩

theorem noBr_pad {x : JSString} (h : NoBr x) : NoBr (' ' :: (x ++ [' '])) :=
  noBr_cons_space (noBr_append_space h)

theorem intercalate_append_single {items : List JSString} (hne : items ≠ [])
    (x : JSString) :
    List.intercalate SEPARATOR (items ++ [x]) =
      List.intercalate SEPARATOR items ++ SEPARATOR ++ x := by
  induction items with
  | nil => exact absurd rfl hne
  | cons i rest ih =>
    cases rest with
    | nil =>
      rw [List.cons_append, List.nil_append, intercalate_cons_of_ne _ _ (by simp),
        intercalate_single, intercalate_single]
    | cons j rest' =>
      rw [List.cons_append, intercalate_cons_of_ne _ _ (by simp),
        intercalate_cons_of_ne _ _ (by simp), ih (by simp)]
      simp [List.append_assoc]

/-- `Array.prototype.join("|")` on the five-field parts list. -/
theorem intercalate_five (v a b cc w : JSString) :
    List.intercalate ['|'] [v, a, b, cc, w] =
      v ++ '|' :: (a ++ '|' :: (b ++ '|' :: (cc ++ '|' :: w))) := by
  simp [List.intercalate, List.intersperse]

/-- Any line of the canonical five-field shape contains `| id |`. -/
theorem includes_rowPattern_shape (id Y : JSString) :
    includes ('|' :: ((' ' :: (id ++ [' '])) ++ '|' :: Y)) (rowPattern id) = true := by
  rw [includes_true_iff]
  refine List.IsPrefix.isInfix ⟨Y, ?_⟩
  rw [rowPattern]
  simp [List.append_assoc]

/-- The read scan over mapped lines of a store whose matching lines all
equal one canonical row: the result is the decode of the mapped row. -/
theorem getRelevanceLoop_map_canonical {id row : JSString} {f : JSString → JSString}
    (hf : ∀ l, includes l (rowPattern id) = false → f l = l)
    (hfr : includes (f row) (rowPattern id) = true)
    (hflen : 4 ≤ (splitOnChar '|' (f row)).length) :
    ∀ lines : List JSString, (∃ l ∈ lines, includes l (rowPattern id) = true) →
      (∀ l ∈ lines, includes l (rowPattern id) = true → l = row) →
      getRelevanceLoop id (lines.map f) = decodeRowPair (f row) := by
  intro lines
  induction lines with
  | nil => rintro ⟨l, hl, -⟩ _; exact absurd hl (by simp)
  | cons l rest ih =>
    rintro ⟨l0, hl0, hl0m⟩ hcanon
    by_cases hm : includes l (rowPattern id) = true
    · have : l = row := hcanon l (by simp) hm
      subst this
      rw [List.map_cons, getRelevanceLoop_head _ hfr hflen]
    · have hmf : includes l (rowPattern id) = false := by simpa using hm
      rw [List.map_cons, hf l hmf, getRelevanceLoop_skip _ hmf]
      refine ih ⟨l0, ?_, hl0m⟩ (fun z hz hzm => hcanon z (List.mem_cons_of_mem _ hz) hzm)
      rcases List.mem_cons.mp hl0 with rfl | hl0
      · exact absurd hl0m (by simp [hmf])
      · exact hl0

/-- A canonical encoded row contains no newline. -/
theorem encodeRow_no_newline {id claim : JSString} {items : List JSString}
    (hid : '\n' ∉ id) (hclaim : '\n' ∉ claim) (hitems : ∀ x ∈ items, '\n' ∉ x) :
    '\n' ∉ encodeRow id claim items := by
  rw [encodeRow]
  intro hmem
  simp only [List.mem_append] at hmem
  rcases hmem with (((((hm | hm) | hm) | hm) | hm) | hm) | hm
  · exact absurd hm (by decide)
  · exact hid hm
  · exact absurd hm (by decide)
  · exact hclaim hm
  · exact absurd hm (by decide)
  · exact not_mem_intercalate newline_not_mem_SEPARATOR hitems hm
  · exact absurd hm (by decide)

/-- No newline in a five-field line built from newline-free parts. -/
theorem no_newline_shape {id claim C3 : JSString} (hid : '\n' ∉ id)
    (hclaim : '\n' ∉ claim) (hC : '\n' ∉ C3) :
    '\n' ∉ ('|' :: ((' ' :: (id ++ [' '])) ++ '|' ::
      ((' ' :: (claim ++ [' '])) ++ '|' :: (C3 ++ ['|'])))) := by
  intro hmem
  simp at hmem
  tauto

/-- No pipe in the first two fields of a canonical row. -/
theorem no_pipe_pad {x : JSString} (hx : '|' ∉ x) : '|' ∉ ' ' :: (x ++ [' ']) := by
  intro hmem
  rcases List.mem_cons.mp hmem with hm | hm
  · exact absurd hm.symm (by decide)
  · rcases List.mem_append.mp hm with hm | hm
    · exact hx hm
    · exact absurd hm (by decide)

/-- `appendRelevance`'s per-line rewrite turns the canonical row of a
nonempty item list into the canonical row with the new item appended. -/
theorem appendLine_encodeRow_of_ne {id claim : JSString} (safe : JSString)
    (items : List JSString)
    (hid : Sanitized id) (hclaim : Sanitized claim)
    (hitems : ∀ x ∈ items, GoodItem x) (hne : items ≠ []) :
    appendLine id safe (encodeRow id claim items) =
      encodeRow id claim (items ++ [safe]) := by
  have hinc : includes (encodeRow id claim items) (rowPattern id) = true := by
    rw [encodeRow_shape]; exact includes_rowPattern_shape id _
  have hcellp : '|' ∉ List.intercalate SEPARATOR items :=
    not_mem_intercalate pipe_not_mem_SEPARATOR (fun x hx => (hitems x hx).1.no_pipe)
  have hsplit : splitOnChar '|' (encodeRow id claim items) =
      [[], ' ' :: (id ++ [' ']), ' ' :: (claim ++ [' ']),
        ' ' :: (List.intercalate SEPARATOR items ++ [' ']), []] := by
    rw [encodeRow_shape]
    exact splitRowParts (no_pipe_pad hid.no_pipe) (no_pipe_pad hclaim.no_pipe)
      (no_pipe_pad hcellp)
  have hcellne : List.intercalate SEPARATOR items ≠ [] :=
    intercalate_ne_nil hne (fun x hx => (hitems x hx).2.1)
  simp only [appendLine, hinc, if_true]
  rw [hsplit]
  rw [if_pos (by simp)]
  rw [show ([[], ' ' :: (id ++ [' ']), ' ' :: (claim ++ [' ']),
      ' ' :: (List.intercalate SEPARATOR items ++ [' ']), []] : List JSString).getD 3 []
      = ' ' :: (List.intercalate SEPARATOR items ++ [' ']) from rfl]
  have hcur : trim (' ' :: (List.intercalate SEPARATOR items ++ [' '])) =
      List.intercalate SEPARATOR items := by
    rw [trim_pad,
      trim_intercalate hne (fun x hx => ⟨((hitems x hx).1).trim_eq, (hitems x hx).2.1⟩)]
  rw [hcur, if_pos (List.length_pos.mpr hcellne)]
  rw [show ([[], ' ' :: (id ++ [' ']), ' ' :: (claim ++ [' ']),
      ' ' :: (List.intercalate SEPARATOR items ++ [' ']), []] : List JSString).set 3
      ([' '] ++ List.intercalate SEPARATOR items ++ SEPARATOR ++ safe ++ [' '])
      = [[], ' ' :: (id ++ [' ']), ' ' :: (claim ++ [' ']),
        [' '] ++ List.intercalate SEPARATOR items ++ SEPARATOR ++ safe ++ [' '], []] from rfl]
  rw [intercalate_five, encodeRow_shape id claim (items ++ [safe]),
    intercalate_append_single hne safe]
  simp [List.append_assoc]

/-- `appendRelevance`'s per-line rewrite on the canonical row of an empty
item list: the new text becomes the sole item, joined with a plain space
(the cell keeps one extra leading space). -/
theorem appendLine_encodeRow_nil {id claim : JSString} (safe : JSString)
    (hid : Sanitized id) (hclaim : Sanitized claim) :
    appendLine id safe (encodeRow id claim []) =
      '|' :: ((' ' :: (id ++ [' '])) ++ '|' :: ((' ' :: (claim ++ [' '])) ++ '|' ::
        ((' ' :: ' ' :: (safe ++ [' '])) ++ ['|']))) := by
  have hinc : includes (encodeRow id claim []) (rowPattern id) = true := by
    rw [encodeRow_shape]; exact includes_rowPattern_shape id _
  have hsplit : splitOnChar '|' (encodeRow id claim []) =
      [[], ' ' :: (id ++ [' ']), ' ' :: (claim ++ [' ']),
        ' ' :: (List.intercalate SEPARATOR ([] : List JSString) ++ [' ']), []] := by
    rw [encodeRow_shape]
    exact splitRowParts (no_pipe_pad hid.no_pipe) (no_pipe_pad hclaim.no_pipe)
      (no_pipe_pad (by simp [List.intercalate]))
  have h0 : List.intercalate SEPARATOR ([] : List JSString) = [] := by
    simp [List.intercalate]
  simp only [appendLine, hinc, if_true]
  rw [hsplit, if_pos (by simp)]
  rw [show ([[], ' ' :: (id ++ [' ']), ' ' :: (claim ++ [' ']),
      ' ' :: (List.intercalate SEPARATOR ([] : List JSString) ++ [' ']), []] :
      List JSString).getD 3 []
      = ' ' :: (List.intercalate SEPARATOR ([] : List JSString) ++ [' ']) from rfl]
  have hcur : trim (' ' :: (List.intercalate SEPARATOR ([] : List JSString) ++ [' '])) = [] := by
    rw [h0, trim_pad, trim_nil]
  rw [hcur, if_neg (by simp)]
  rw [show ([[], ' ' :: (id ++ [' ']), ' ' :: (claim ++ [' ']),
      ' ' :: (List.intercalate SEPARATOR ([] : List JSString) ++ [' ']), []] :
      List JSString).set 3 ([' '] ++ [] ++ [' '] ++ safe ++ [' '])
      = [[], ' ' :: (id ++ [' ']), ' ' :: (claim ++ [' ']),
        [' '] ++ [] ++ [' '] ++ safe ++ [' '], []] from rfl]
  rw [intercalate_five]
  simp [List.append_assoc]

/-- Decode of a five-field line with pipe-free fields: the claim and the
cell items. -/
theorem decodeRowPair_shape {id claim : JSString} (C3 : JSString)
    (hida : '|' ∉ id) (hclaima : '|' ∉ claim) (hC : '|' ∉ C3)
    (hidt : trim id = id) (hclaimt : trim claim = claim) :
    decodeRowPair ('|' :: ((' ' :: (id ++ [' '])) ++ '|' ::
        ((' ' :: (claim ++ [' '])) ++ '|' :: (C3 ++ ['|'])))) =
      if trim C3 = [] then some (claim, [])
      else some (claim, (splitSep (trim C3)).filter (fun s => !(trim s).isEmpty)) := by
  have hparts : (splitOnChar '|' ('|' :: ((' ' :: (id ++ [' '])) ++ '|' ::
      ((' ' :: (claim ++ [' '])) ++ '|' :: (C3 ++ ['|']))))).map trim =
      [[], id, claim, trim C3, []] := by
    rw [splitRowParts (no_pipe_pad hida) (no_pipe_pad hclaima) hC]
    simp only [List.map_cons, List.map_nil, trim_nil, trim_pad, hidt, hclaimt]
  rw [decodeRowPair, decodeRow_parts_eq hparts]
  by_cases h0 : trim C3 = []
  · rw [if_pos h0, if_pos h0]
    rfl
  · rw [if_neg h0, if_neg h0]
    rfl

/-- C3, amended: on a store whose lines matching `| id |` all equal the
canonical encoded row of a separator-free item list, `appendItem`
rewrites that row's cell so that the decoded item sequence afterwards is
the old sequence with the sanitized text appended at the end (as the
sole item when the cell was empty) — provided the sanitized text itself
is nonempty and separator-free.  A missing store file or a store with no
matching line is a silent no-op. -/
theorem c3_append_item (id claim t c : JSString) (items : List JSString)
    (hid : Sanitized id) (hclaim : Sanitized claim)
    (hitems : ∀ x ∈ items, GoodItem x)
    (ht : GoodItem (sanitize t))
    (hmatch : ∃ l ∈ splitOnChar '\n' c, includes l (rowPattern id) = true)
    (hcanon : ∀ l ∈ splitOnChar '\n' c, includes l (rowPattern id) = true →
      l = encodeRow id claim items) :
    getRelevanceData (appendRelevance (some c) id t) id =
      some (claim, items ++ [sanitize t]) ∧
    appendRelevance none id t = none ∧
    (∀ c₀ : JSString, (∀ l ∈ splitOnChar '\n' c₀, includes l (rowPattern id) = false) →
      appendRelevance (some c₀) id t = some c₀) := by
  refine ⟨?_, rfl, ?_⟩
  · show getRelevanceLoop id (splitOnChar '\n' (List.intercalate ['\n']
      ((splitOnChar '\n' c).map (appendLine id (sanitize t))))) =
      some (claim, items ++ [sanitize t])
    have hf : ∀ l, includes l (rowPattern id) = false → appendLine id (sanitize t) l = l := by
      intro l hl
      simp only [appendLine, hl, Bool.false_eq_true, if_false]
    by_cases hnil : items = []
    · subst hnil
      have hfrow := appendLine_encodeRow_nil (sanitize t) hid hclaim
      have hC3nl : '\n' ∉ ' ' :: ' ' :: (sanitize t ++ [' ']) := by
        intro hm
        rcases List.mem_cons.mp hm with hm | hm
        · exact absurd hm.symm (by decide)
        rcases List.mem_cons.mp hm with hm | hm
        · exact absurd hm.symm (by decide)
        rcases List.mem_append.mp hm with hm | hm
        · exact sanitize_no_newline t hm
        · exact absurd hm (by decide)
      have hC3p : '|' ∉ ' ' :: ' ' :: (sanitize t ++ [' ']) := by
        intro hm
        rcases List.mem_cons.mp hm with hm | hm
        · exact absurd hm.symm (by decide)
        rcases List.mem_cons.mp hm with hm | hm
        · exact absurd hm.symm (by decide)
        rcases List.mem_append.mp hm with hm | hm
        · exact sanitize_no_pipe t hm
        · exact absurd hm (by decide)
      have hnlall : ∀ l' ∈ (splitOnChar '\n' c).map (appendLine id (sanitize t)), '\n' ∉ l' := by
        intro l' hl'
        obtain ⟨l, hl, rfl⟩ := List.mem_map.mp hl'
        by_cases hm : includes l (rowPattern id) = true
        · rw [hcanon l hl hm, hfrow]
          exact no_newline_shape hid.no_newline hclaim.no_newline hC3nl
        · rw [hf l (by simpa using hm)]
          exact splitOnChar_not_mem_of_mem l hl
      rw [splitOnChar_intercalate hnlall (by
        intro hmn
        exact splitOnChar_ne_nil '\n' c (List.map_eq_nil_iff.mp hmn)),
        getRelevanceLoop_map_canonical hf (by rw [hfrow]; exact includes_rowPattern_shape id _)
          (by rw [hfrow, splitRowParts (no_pipe_pad hid.no_pipe) (no_pipe_pad hclaim.no_pipe) hC3p]
              simp)
          (splitOnChar '\n' c) hmatch hcanon,
        hfrow, decodeRowPair_shape _ hid.no_pipe hclaim.no_pipe hC3p hid.trim_eq hclaim.trim_eq]
      have htrimC3 : trim (' ' :: ' ' :: (sanitize t ++ [' '])) = sanitize t := by
        rw [show (' ' :: ' ' :: (sanitize t ++ [' '])) =
            ' ' :: ((' ' :: sanitize t) ++ [' ']) from rfl, trim_pad,
          trim_cons_ws (by decide), ht.1.trim_eq]
      rw [htrimC3, if_neg ht.2.1, splitSep_noBr ht.2.2]
      rw [show ([sanitize t].filter (fun s => !(trim s).isEmpty)) = [sanitize t] from by
        simp [List.isEmpty_iff, ht.1.trim_eq, ht.2.1]]
      simp
    · have hfrow := appendLine_encodeRow_of_ne (sanitize t) items hid hclaim hitems hnil
      have hall : ∀ x ∈ items ++ [sanitize t], GoodItem x := by
        intro x hx
        rcases List.mem_append.mp hx with hx | hx
        · exact hitems x hx
        · rw [List.mem_singleton.mp hx]
          exact ht
      have hnlall : ∀ l' ∈ (splitOnChar '\n' c).map (appendLine id (sanitize t)), '\n' ∉ l' := by
        intro l' hl'
        obtain ⟨l, hl, rfl⟩ := List.mem_map.mp hl'
        by_cases hm : includes l (rowPattern id) = true
        · rw [hcanon l hl hm, hfrow]
          exact encodeRow_no_newline hid.no_newline hclaim.no_newline
            (fun x hx => (hall x hx).1.no_newline)
        · rw [hf l (by simpa using hm)]
          exact splitOnChar_not_mem_of_mem l hl
      have hparts2 := encodeRow_parts (items ++ [sanitize t]) hid hclaim hall
      rw [splitOnChar_intercalate hnlall (by
        intro hmn
        exact splitOnChar_ne_nil '\n' c (List.map_eq_nil_iff.mp hmn)),
        getRelevanceLoop_map_canonical hf
          (by rw [hfrow, encodeRow_shape]; exact includes_rowPattern_shape id _)
          (by have := congrArg List.length hparts2
              simp only [List.length_map, List.length_cons, List.length_nil] at this
              rw [hfrow]
              omega)
          (splitOnChar '\n' c) hmatch hcanon,
        hfrow, decodeRowPair, decodeRow_encodeRow id claim (items ++ [sanitize t])
          hid hclaim hall]
      rfl
  · intro c₀ h₀
    show some (List.intercalate ['\n']
      ((splitOnChar '\n' c₀).map (appendLine id (sanitize t)))) = some c₀
    have h1 : ∀ l ∈ splitOnChar '\n' c₀, appendLine id (sanitize t) l = l := by
      intro l hl
      simp only [appendLine, h₀ l hl, Bool.false_eq_true, if_false]
    rw [show (splitOnChar '\n' c₀).map (appendLine id (sanitize t)) =
        (splitOnChar '\n' c₀).map (fun l => l) from List.map_congr_left h1,
      List.map_id', intercalate_splitOnChar]

/-- Witness for C3: appending `Reason 2` to the canonical one-item row. -/
theorem c3_append_item_witness :
    getRelevanceData
        (appendRelevance
          (some (encodeRow (("123456").toList) (("Claim A").toList) [("Reason 1").toList]))
          (("123456").toList) (("Reason 2").toList)) (("123456").toList) =
      some ((("Claim A").toList), [("Reason 1").toList, ("Reason 2").toList]) ∧
    appendRelevance none (("123456").toList) (("Reason 2").toList) = none := by
  have h := c3_append_item (("123456").toList) (("Claim A").toList) (("Reason 2").toList)
    (encodeRow (("123456").toList) (("Claim A").toList) [("Reason 1").toList])
    [("Reason 1").toList] (by decide) (by decide) (by decide) (by decide)
    (by decide) (by decide)
  exact ⟨h.1.trans (by decide), h.2.1⟩

/-- Counterexample for C3 as stated: appending the text `p <br> q`
(which `sanitize` leaves unchanged) does not yield the old sequence with
one new item at the end — the text collides with the in-cell separator
and decodes as two items. -/
theorem c3_append_item_counterexample :
    getRelevanceData
        (appendRelevance (some (("| 123456 | c | x |").toList)) (("123456").toList)
          (("p <br> q").toList)) (("123456").toList) ≠
      some ((("c").toList), [("x").toList, ("p <br> q").toList]) ∧
    getRelevanceData
        (appendRelevance (some (("| 123456 | c | x |").toList)) (("123456").toList)
          (("p <br> q").toList)) (("123456").toList) =
      some ((("c").toList), [("x").toList, ("p").toList, ("q").toList]) := by
  exact ⟨by decide, by decide⟩

/-- Pointwise frame facts lifted to `Forall₂` along `map`. -/
theorem forall2_map_self {R : JSString → JSString → Prop} {f : JSString → JSString}
    (l : List JSString) (h : ∀ x ∈ l, R x (f x)) : List.Forall₂ R l (l.map f) := by
  induction l with
  | nil => exact List.Forall₂.nil
  | cons x xs ih =>
    exact List.Forall₂.cons (h x (by simp)) (ih (fun z hz => h z (List.mem_cons_of_mem _ hz)))

/-- C10: for both item edits on an existing store, the result is the
line-by-line rewrite of the file: every line not containing `| <id> |`
is written back byte-identical in its original position, and every line
containing it (all of them, not only the first) is rewritten by the
respective per-line edit. -/
theorem c10_item_edit_frame (id t : JSString) (ix : Int) (c : JSString) :
    appendRelevance (some c) id t =
      some (List.intercalate ['\n'] ((splitOnChar '\n' c).map (appendLine id (sanitize t)))) ∧
    removeRelevanceItem (some c) id ix =
      some (List.intercalate ['\n'] ((splitOnChar '\n' c).map (removeLine id ix))) ∧
    List.Forall₂ (fun orig new =>
        (includes orig (rowPattern id) = false → new = orig) ∧
        (includes orig (rowPattern id) = true → new = appendLine id (sanitize t) orig))
      (splitOnChar '\n' c) ((splitOnChar '\n' c).map (appendLine id (sanitize t))) ∧
    List.Forall₂ (fun orig new =>
        (includes orig (rowPattern id) = false → new = orig) ∧
        (includes orig (rowPattern id) = true → new = removeLine id ix orig))
      (splitOnChar '\n' c) ((splitOnChar '\n' c).map (removeLine id ix)) := by
  refine ⟨rfl, rfl, ?_, ?_⟩
  · refine forall2_map_self _ (fun x _ => ⟨fun hfalse => ?_, fun _ => rfl⟩)
    simp only [appendLine, hfalse, Bool.false_eq_true, if_false]
  · refine forall2_map_self _ (fun x _ => ⟨fun hfalse => ?_, fun _ => rfl⟩)
    simp only [removeLine, hfalse, Bool.false_eq_true, if_false]

theorem padLast_ne_nil {l : List JSString} (h : l ≠ []) : padLast l ≠ [] := by
  obtain ⟨x, xs, rfl⟩ := List.exists_cons_of_ne_nil h
  cases xs <;> simp [padLast]

theorem padLast_cons_of_ne (z : JSString) {M : List JSString} (h : M ≠ []) :
    padLast (z :: M) = z :: padLast M := by
  obtain ⟨y, ys, rfl⟩ := List.exists_cons_of_ne_nil h
  rfl

theorem padLast_length (l : List JSString) : (padLast l).length = l.length := by
  induction l with
  | nil => rfl
  | cons x xs ih =>
    cases xs with
    | nil => rfl
    | cons y ys => simpa [padLast] using ih

theorem padArr_length (items : List JSString) : (padArr items).length = items.length := by
  cases items with
  | nil => rfl
  | cons x xs =>
    cases xs with
    | nil => rfl
    | cons y ys => simpa [padArr] using padLast_length (y :: ys)

theorem mem_padLast {l : List JSString} :
    ∀ z ∈ padLast l, z ∈ l ∨ ∃ w ∈ l, z = w ++ [' '] := by
  induction l with
  | nil => simp [padLast]
  | cons x xs ih =>
    cases xs with
    | nil =>
      intro z hz
      rcases List.mem_singleton.mp hz with rfl
      exact Or.inr ⟨x, by simp, rfl⟩
    | cons y ys =>
      intro z hz
      rcases List.mem_cons.mp hz with rfl | hz
      · exact Or.inl (by simp)
      · rcases ih z hz with h | ⟨w, hw, rfl⟩
        · exact Or.inl (List.mem_cons_of_mem _ h)
        · exact Or.inr ⟨w, List.mem_cons_of_mem _ hw, rfl⟩

theorem mem_padArr {items : List JSString} :
    ∀ z ∈ padArr items, ∃ w ∈ items,
      z = w ∨ z = w ++ [' '] ∨ z = ' ' :: w ∨ z = ' ' :: (w ++ [' ']) := by
  cases items with
  | nil => simp [padArr]
  | cons x xs =>
    cases xs with
    | nil =>
      intro z hz
      rcases List.mem_singleton.mp hz with rfl
      exact ⟨x, by simp, by simp⟩
    | cons y ys =>
      intro z hz
      rcases List.mem_cons.mp hz with rfl | hz
      · exact ⟨x, by simp, by simp⟩
      · rcases mem_padLast z hz with h | ⟨w, hw, rfl⟩
        · exact ⟨z, List.mem_cons_of_mem _ h, by simp⟩
        · exact ⟨w, List.mem_cons_of_mem _ hw, by simp⟩

theorem intercalate_padLast {l : List JSString} (h : l ≠ []) :
    List.intercalate SEPARATOR (padLast l) = List.intercalate SEPARATOR l ++ [' '] := by
  induction l with
  | nil => exact absurd rfl h
  | cons x xs ih =>
    cases xs with
    | nil => rw [padLast, intercalate_single, intercalate_single]
    | cons y ys =>
      rw [padLast, intercalate_cons_of_ne SEPARATOR x (padLast_ne_nil (by simp)),
        ih (by simp), intercalate_cons_of_ne SEPARATOR x (show (y :: ys) ≠ [] from by simp)]
      simp [List.append_assoc]

theorem eraseIdx_padLast_lt {l : List JSString} {j : Nat} (h : j + 1 < l.length) :
    (padLast l).eraseIdx j = padLast (l.eraseIdx j) := by
  induction l generalizing j with
  | nil => simp at h
  | cons x xs ih =>
    cases xs with
    | nil => simp at h
    | cons y ys =>
      cases j with
      | zero =>
        rw [padLast, List.eraseIdx_cons_zero, List.eraseIdx_cons_zero]
      | succ j' =>
        have hj : j' + 1 < (y :: ys).length := by
          simp only [List.length_cons] at h ⊢
          omega
        rw [padLast, List.eraseIdx_cons_succ, List.eraseIdx_cons_succ, ih hj,
          padLast_cons_of_ne x (by
            intro hc
            have hlen := congrArg List.length hc
            rw [List.length_eraseIdx] at hlen
            simp only [List.length_cons, List.length_nil] at hlen hj
            split at hlen <;> omega)]

theorem eraseIdx_length_sub_one (l : List JSString) :
    l.eraseIdx (l.length - 1) = l.dropLast := by
  induction l with
  | nil => rfl
  | cons x xs ih =>
    cases xs with
    | nil => rfl
    | cons y ys =>
      rw [show (x :: y :: ys).length - 1 = (y :: ys).length - 1 + 1 from by
          simp [Nat.succ_sub_one],
        List.eraseIdx_cons_succ, ih, List.dropLast_cons₂]

theorem eraseIdx_padLast_last {l : List JSString} (h : l ≠ []) :
    (padLast l).eraseIdx (l.length - 1) = l.dropLast := by
  induction l with
  | nil => exact absurd rfl h
  | cons x xs ih =>
    cases xs with
    | nil => rfl
    | cons y ys =>
      rw [padLast, show (x :: y :: ys).length - 1 = (y :: ys).length - 1 + 1 from by
          simp [Nat.succ_sub_one],
        List.eraseIdx_cons_succ, ih (by simp), List.dropLast_cons₂]

/-- Splitting the joined items with the trailing pad space. -/
theorem splitSep_join_pad {items : List JSString} (h : ∀ x ∈ items, GoodItem x)
    (hne : items ≠ []) :
    splitSep (List.intercalate SEPARATOR items ++ [' ']) = padLast items := by
  induction items with
  | nil => exact absurd rfl hne
  | cons x xs ih =>
    cases xs with
    | nil =>
      rw [intercalate_single, padLast]
      exact splitSep_noBr (noBr_append_space (h x (by simp)).2.2)
    | cons y ys =>
      rw [intercalate_cons_of_ne SEPARATOR x (by simp),
        show (x ++ SEPARATOR ++ List.intercalate SEPARATOR (y :: ys)) ++ [' '] =
          x ++ SEPARATOR ++ (List.intercalate SEPARATOR (y :: ys) ++ [' ']) from by
          simp [List.append_assoc],
        splitSep_sep_append (h x (by simp)).2.2,
        ih (fun z hz => h z (List.mem_cons_of_mem _ hz)) (by simp), padLast]

/-- The `relArray` computed by `removeRelevanceItem` from the cell of a
canonical row is the pad-preserving chunk list `padArr`. -/
theorem relArray_encodeRow {items : List JSString} (h : ∀ x ∈ items, GoodItem x) :
    (splitSep (' ' :: (List.intercalate SEPARATOR items ++ [' ']))).filter
      (fun s => !(trim s).isEmpty) = padArr items := by
  cases items with
  | nil => decide
  | cons x xs =>
    cases xs with
    | nil =>
      rw [intercalate_single, padArr, splitSep_noBr (noBr_pad (h x (by simp)).2.2)]
      refine List.filter_eq_self.mpr ?_
      intro z hz
      rcases List.mem_singleton.mp hz with rfl
      have hx := h x (by simp)
      have ht : trim (' ' :: (x ++ [' '])) = x := by rw [trim_pad, hx.1.trim_eq]
      simp [ht, List.isEmpty_iff, hx.2.1]
    | cons y ys =>
      rw [show ' ' :: (List.intercalate SEPARATOR (x :: y :: ys) ++ [' ']) =
          (' ' :: x) ++ SEPARATOR ++ (List.intercalate SEPARATOR (y :: ys) ++ [' ']) from by
          rw [intercalate_cons_of_ne SEPARATOR x (by simp)]
          simp [List.append_assoc],
        splitSep_sep_append (noBr_cons_space (h x (by simp)).2.2),
        splitSep_join_pad (fun z hz => h z (List.mem_cons_of_mem _ hz)) (by simp), padArr]
      refine List.filter_eq_self.mpr ?_
      intro z hz
      rcases List.mem_cons.mp hz with rfl | hz
      · have hx := h x (by simp)
        have ht : trim (' ' :: x) = x := by rw [trim_cons_ws (by decide), hx.1.trim_eq]
        simp [ht, List.isEmpty_iff, hx.2.1]
      · rcases mem_padLast z hz with hzin | ⟨w, hw, rfl⟩
        · have hzg := h z (List.mem_cons_of_mem _ hzin)
          simp [hzg.1.trim_eq, List.isEmpty_iff, hzg.2.1]
        · have hwg := h w (List.mem_cons_of_mem _ hw)
          have ht : trim (w ++ [' ']) = w := by rw [trim_append_ws (by decide), hwg.1.trim_eq]
          simp [ht, List.isEmpty_iff, hwg.2.1]

/-- Re-encoding the untouched `relArray` and trimming recovers the
original joined items (only the cell's edge whitespace differs). -/
theorem trim_intercalate_padArr {items : List JSString} (h : ∀ x ∈ items, GoodItem x) :
    trim (List.intercalate SEPARATOR (padArr items)) = List.intercalate SEPARATOR items := by
  cases items with
  | nil => rfl
  | cons x xs =>
    cases xs with
    | nil =>
      rw [padArr, intercalate_single, intercalate_single]
      have hx := h x (by simp)
      rw [trim_pad, hx.1.trim_eq]
    | cons y ys =>
      rw [padArr, intercalate_cons_of_ne SEPARATOR (' ' :: x) (padLast_ne_nil (by simp)),
        intercalate_padLast (by simp),
        show (' ' :: x) ++ SEPARATOR ++ (List.intercalate SEPARATOR (y :: ys) ++ [' ']) =
          ' ' :: ((x ++ SEPARATOR ++ List.intercalate SEPARATOR (y :: ys)) ++ [' ']) from by
          simp [List.append_assoc],
        trim_pad,
        show x ++ SEPARATOR ++ List.intercalate SEPARATOR (y :: ys) =
          List.intercalate SEPARATOR (x :: y :: ys) from
          (intercalate_cons_of_ne SEPARATOR x (by simp)).symm]
      exact trim_intercalate (by simp) (fun z hz => ⟨(h z hz).1.trim_eq, (h z hz).2.1⟩)

/-- Re-encoding the spliced `relArray` and trimming yields exactly the
joined erased item list. -/
theorem trim_intercalate_erase {items : List JSString} (h : ∀ x ∈ items, GoodItem x)
    {k : Nat} (hk : k < items.length) :
    trim (List.intercalate SEPARATOR ((padArr items).eraseIdx k)) =
      List.intercalate SEPARATOR (items.eraseIdx k) := by
  cases items with
  | nil => simp at hk
  | cons x xs =>
    cases xs with
    | nil =>
      have hk0 : k = 0 := by
        simp only [List.length_cons, List.length_nil] at hk
        omega
      subst hk0
      rw [padArr, List.eraseIdx_cons_zero, List.eraseIdx_cons_zero]
      rfl
    | cons y ys =>
      cases k with
      | zero =>
        rw [padArr, List.eraseIdx_cons_zero, List.eraseIdx_cons_zero,
          intercalate_padLast (by simp), trim_append_ws (by decide)]
        exact trim_intercalate (by simp) (fun z hz =>
          ⟨((h z (List.mem_cons_of_mem _ hz)).1).trim_eq,
            (h z (List.mem_cons_of_mem _ hz)).2.1⟩)
      | succ j =>
        rw [padArr, List.eraseIdx_cons_succ, List.eraseIdx_cons_succ]
        by_cases hj : j + 1 < (y :: ys).length
        · have hMne : (y :: ys).eraseIdx j ≠ [] := by
            intro hc
            have hlen := congrArg List.length hc
            rw [List.length_eraseIdx] at hlen
            simp only [List.length_cons, List.length_nil] at hlen hj
            split at hlen <;> omega
          rw [eraseIdx_padLast_lt hj,
            intercalate_cons_of_ne SEPARATOR (' ' :: x) (padLast_ne_nil hMne),
            intercalate_padLast hMne,
            show (' ' :: x) ++ SEPARATOR ++
                (List.intercalate SEPARATOR ((y :: ys).eraseIdx j) ++ [' ']) =
              ' ' :: ((x ++ SEPARATOR ++ List.intercalate SEPARATOR ((y :: ys).eraseIdx j))
                ++ [' ']) from by simp [List.append_assoc],
            trim_pad,
            show x ++ SEPARATOR ++ List.intercalate SEPARATOR ((y :: ys).eraseIdx j) =
              List.intercalate SEPARATOR (x :: (y :: ys).eraseIdx j) from
              (intercalate_cons_of_ne SEPARATOR x hMne).symm]
          refine trim_intercalate (by simp) (fun z hz => ?_)
          rcases List.mem_cons.mp hz with rfl | hz
          · exact ⟨(h z (by simp)).1.trim_eq, (h z (by simp)).2.1⟩
          · have hzg := h z (List.mem_cons_of_mem _
              (((y :: ys).eraseIdx_sublist j).subset hz))
            exact ⟨hzg.1.trim_eq, hzg.2.1⟩
        · have hjeq : j = (y :: ys).length - 1 := by
            simp only [List.length_cons] at hk hj ⊢
            omega
          subst hjeq
          rw [eraseIdx_padLast_last (by simp), eraseIdx_length_sub_one]
          have hgood : ∀ z ∈ x :: (y :: ys).dropLast, GoodItem z := by
            intro z hz
            rcases List.mem_cons.mp hz with rfl | hz
            · exact h z (by simp)
            · exact h z (List.mem_cons_of_mem _ ((y :: ys).dropLast_sublist.subset hz))
          rcases eq_or_ne ((y :: ys).dropLast) [] with hD0 | hD0
          · rw [hD0, intercalate_single, intercalate_single, trim_cons_ws (by decide),
              (h x (by simp)).1.trim_eq]
          · rw [intercalate_cons_of_ne SEPARATOR (' ' :: x) hD0,
              intercalate_cons_of_ne SEPARATOR x hD0,
              show (' ' :: x) ++ SEPARATOR ++ List.intercalate SEPARATOR ((y :: ys).dropLast) =
                ' ' :: (x ++ SEPARATOR ++ List.intercalate SEPARATOR ((y :: ys).dropLast))
                from by simp [List.append_assoc],
              trim_cons_ws (by decide),
              show x ++ SEPARATOR ++ List.intercalate SEPARATOR ((y :: ys).dropLast) =
                List.intercalate SEPARATOR (x :: (y :: ys).dropLast) from
                (intercalate_cons_of_ne SEPARATOR x hD0).symm]
            exact trim_intercalate (by simp)
              (fun z hz => ⟨(hgood z hz).1.trim_eq, (hgood z hz).2.1⟩)

/-- `removeRelevanceItem`'s per-line rewrite on a canonical row: the
cell is re-encoded from the (possibly spliced) pad-preserving chunk
list. -/
theorem removeLine_encodeRow {id claim : JSString} (items : List JSString) (ix : Int)
    (hid : Sanitized id) (hclaim : Sanitized claim)
    (hitems : ∀ x ∈ items, GoodItem x) :
    removeLine id ix (encodeRow id claim items) =
      '|' :: ((' ' :: (id ++ [' '])) ++ '|' :: ((' ' :: (claim ++ [' '])) ++ '|' ::
        (([' '] ++ List.intercalate SEPARATOR
            (if 0 ≤ ix ∧ ix < (items.length : Int) then (padArr items).eraseIdx ix.toNat
             else padArr items) ++ [' ']) ++ ['|']))) := by
  have hinc : includes (encodeRow id claim items) (rowPattern id) = true := by
    rw [encodeRow_shape]; exact includes_rowPattern_shape id _
  have hcellp : '|' ∉ List.intercalate SEPARATOR items :=
    not_mem_intercalate pipe_not_mem_SEPARATOR (fun x hx => (hitems x hx).1.no_pipe)
  have hsplit : splitOnChar '|' (encodeRow id claim items) =
      [[], ' ' :: (id ++ [' ']), ' ' :: (claim ++ [' ']),
        ' ' :: (List.intercalate SEPARATOR items ++ [' ']), []] := by
    rw [encodeRow_shape]
    exact splitRowParts (no_pipe_pad hid.no_pipe) (no_pipe_pad hclaim.no_pipe)
      (no_pipe_pad hcellp)
  simp only [removeLine, hinc, if_true]
  rw [hsplit, if_pos (by simp)]
  rw [show ([[], ' ' :: (id ++ [' ']), ' ' :: (claim ++ [' ']),
      ' ' :: (List.intercalate SEPARATOR items ++ [' ']), []] : List JSString).getD 3 []
      = ' ' :: (List.intercalate SEPARATOR items ++ [' ']) from rfl]
  rw [relArray_encodeRow hitems, padArr_length]
  rw [show ∀ v : JSString, ([[], ' ' :: (id ++ [' ']), ' ' :: (claim ++ [' ']),
      ' ' :: (List.intercalate SEPARATOR items ++ [' ']), []] : List JSString).set 3 v
      = [[], ' ' :: (id ++ [' ']), ' ' :: (claim ++ [' ']), v, []] from fun v => rfl]
  rw [intercalate_five]
  simp

/-- C4, amended: on a store whose lines matching `| id |` all equal the
canonical encoded row of a separator-free item list, `removeItem` with
an in-range index deletes exactly the item at that index from the
decoded item sequence (remaining items keep their relative order), and
with an out-of-range index it leaves the decoded row (claim and items)
unchanged — though the cell's surrounding whitespace is renormalized,
so the line need not stay byte-identical.  A missing store file is a
silent no-op. -/
theorem c4_remove_item (id claim c : JSString) (items : List JSString) (ix : Int)
    (hid : Sanitized id) (hclaim : Sanitized claim)
    (hitems : ∀ x ∈ items, GoodItem x)
    (hmatch : ∃ l ∈ splitOnChar '\n' c, includes l (rowPattern id) = true)
    (hcanon : ∀ l ∈ splitOnChar '\n' c, includes l (rowPattern id) = true →
      l = encodeRow id claim items) :
    (0 ≤ ix ∧ ix < (items.length : Int) →
      getRelevanceData (removeRelevanceItem (some c) id ix) id =
        some (claim, items.eraseIdx ix.toNat)) ∧
    (¬ (0 ≤ ix ∧ ix < (items.length : Int)) →
      getRelevanceData (removeRelevanceItem (some c) id ix) id = some (claim, items)) ∧
    removeRelevanceItem none id ix = none := by
  have hfrow := removeLine_encodeRow items ix hid hclaim hitems
  have hf : ∀ l, includes l (rowPattern id) = false → removeLine id ix l = l := by
    intro l hl
    simp only [removeLine, hl, Bool.false_eq_true, if_false]
  have hrel2 : ∀ z ∈ (if 0 ≤ ix ∧ ix < (items.length : Int)
      then (padArr items).eraseIdx ix.toNat else padArr items), ∃ w ∈ items,
      z = w ∨ z = w ++ [' '] ∨ z = ' ' :: w ∨ z = ' ' :: (w ++ [' ']) := by
    intro z hz
    by_cases hin : 0 ≤ ix ∧ ix < (items.length : Int)
    · rw [if_pos hin] at hz
      exact mem_padArr z (((padArr items).eraseIdx_sublist ix.toNat).subset hz)
    · rw [if_neg hin] at hz
      exact mem_padArr z hz
  have hC4nl : '\n' ∉ [' '] ++ List.intercalate SEPARATOR
      (if 0 ≤ ix ∧ ix < (items.length : Int) then (padArr items).eraseIdx ix.toNat
       else padArr items) ++ [' '] := by
    intro hm
    rcases List.mem_append.mp hm with hm | hm
    · rcases List.mem_append.mp hm with hm | hm
      · exact absurd hm (by decide)
      · refine not_mem_intercalate newline_not_mem_SEPARATOR ?_ hm
        intro z hz
        obtain ⟨w, hw, hcase⟩ := hrel2 z hz
        have hwnl : '\n' ∉ w := (hitems w hw).1.no_newline
        rcases hcase with rfl | rfl | rfl | rfl <;> intro hmem <;>
          first
          | exact hwnl hmem
          | (simp at hmem; tauto)
    · exact absurd hm (by decide)
  have hC4p : '|' ∉ [' '] ++ List.intercalate SEPARATOR
      (if 0 ≤ ix ∧ ix < (items.length : Int) then (padArr items).eraseIdx ix.toNat
       else padArr items) ++ [' '] := by
    intro hm
    rcases List.mem_append.mp hm with hm | hm
    · rcases List.mem_append.mp hm with hm | hm
      · exact absurd hm (by decide)
      · refine not_mem_intercalate pipe_not_mem_SEPARATOR ?_ hm
        intro z hz
        obtain ⟨w, hw, hcase⟩ := hrel2 z hz
        have hwnp : '|' ∉ w := (hitems w hw).1.no_pipe
        rcases hcase with rfl | rfl | rfl | rfl <;> intro hmem <;>
          first
          | exact hwnp hmem
          | (simp at hmem; tauto)
    · exact absurd hm (by decide)
  have hnlall : ∀ l' ∈ (splitOnChar '\n' c).map (removeLine id ix), '\n' ∉ l' := by
    intro l' hl'
    obtain ⟨l, hl, rfl⟩ := List.mem_map.mp hl'
    by_cases hm : includes l (rowPattern id) = true
    · rw [hcanon l hl hm, hfrow]
      exact no_newline_shape hid.no_newline hclaim.no_newline hC4nl
    · rw [hf l (by simpa using hm)]
      exact splitOnChar_not_mem_of_mem l hl
  have hmain : getRelevanceData (removeRelevanceItem (some c) id ix) id =
      decodeRowPair (removeLine id ix (encodeRow id claim items)) := by
    show getRelevanceLoop id (splitOnChar '\n' (List.intercalate ['\n']
      ((splitOnChar '\n' c).map (removeLine id ix)))) = _
    rw [splitOnChar_intercalate hnlall (by
        intro hmn
        exact splitOnChar_ne_nil '\n' c (List.map_eq_nil_iff.mp hmn)),
      getRelevanceLoop_map_canonical hf
        (by rw [hfrow]; exact includes_rowPattern_shape id _)
        (by rw [hfrow, splitRowParts (no_pipe_pad hid.no_pipe) (no_pipe_pad hclaim.no_pipe) hC4p]
            simp)
        (splitOnChar '\n' c) hmatch hcanon]
  have hpair := decodeRowPair_shape ([' '] ++ List.intercalate SEPARATOR
      (if 0 ≤ ix ∧ ix < (items.length : Int) then (padArr items).eraseIdx ix.toNat
       else padArr items) ++ [' '])
    hid.no_pipe hclaim.no_pipe hC4p hid.trim_eq hclaim.trim_eq
  refine ⟨?_, ?_, rfl⟩
  · intro hin
    rw [hmain, hfrow, hpair]
    rw [if_pos hin] at *
    have hk : ix.toNat < items.length := by omega
    have htr : trim ([' '] ++ List.intercalate SEPARATOR ((padArr items).eraseIdx ix.toNat)
        ++ [' ']) = List.intercalate SEPARATOR (items.eraseIdx ix.toNat) := by
      rw [show [' '] ++ List.intercalate SEPARATOR ((padArr items).eraseIdx ix.toNat) ++ [' ']
          = ' ' :: (List.intercalate SEPARATOR ((padArr items).eraseIdx ix.toNat) ++ [' '])
          from rfl, trim_pad]
      exact trim_intercalate_erase hitems hk
    rw [htr]
    have hgoodE : ∀ z ∈ items.eraseIdx ix.toNat, GoodItem z :=
      fun z hz => hitems z ((items.eraseIdx_sublist ix.toNat).subset hz)
    rcases eq_or_ne (items.eraseIdx ix.toNat) [] with hE | hE
    · rw [hE]
      rw [show List.intercalate SEPARATOR ([] : List JSString) = [] from rfl, if_pos rfl]
    · rw [if_neg (intercalate_ne_nil hE (fun z hz => (hgoodE z hz).2.1)),
        splitSep_intercalate (fun z hz => (hgoodE z hz).2.2) hE,
        List.filter_eq_self.mpr (fun z hz => by
          simp [List.isEmpty_iff, (hgoodE z hz).1.trim_eq, (hgoodE z hz).2.1])]
  · intro hout
    rw [hmain, hfrow, hpair]
    rw [if_neg hout] at *
    have htr : trim ([' '] ++ List.intercalate SEPARATOR (padArr items) ++ [' ']) =
        List.intercalate SEPARATOR items := by
      rw [show [' '] ++ List.intercalate SEPARATOR (padArr items) ++ [' ']
          = ' ' :: (List.intercalate SEPARATOR (padArr items) ++ [' ']) from rfl, trim_pad]
      exact trim_intercalate_padArr hitems
    rw [htr]
    rcases eq_or_ne items [] with hE | hE
    · rw [hE]
      rw [show List.intercalate SEPARATOR ([] : List JSString) = [] from rfl, if_pos rfl]
    · rw [if_neg (intercalate_ne_nil hE (fun z hz => (hitems z hz).2.1)),
        splitSep_intercalate (fun z hz => (hitems z hz).2.2) hE,
        List.filter_eq_self.mpr (fun z hz => by
          simp [List.isEmpty_iff, (hitems z hz).1.trim_eq, (hitems z hz).2.1])]

/-- Witness for C4: removing index 0 from the canonical row with items
`a`, `b`, `cc` yields `b`, `cc`; index 5 is out of range and the decoded
row is unchanged. -/
theorem c4_remove_item_witness :
    getRelevanceData
        (removeRelevanceItem
          (some (encodeRow (("123456").toList) (("cl").toList)
            [("a").toList, ("b").toList, ("cc").toList]))
          (("123456").toList) 0) (("123456").toList) =
      some ((("cl").toList), [("b").toList, ("cc").toList]) ∧
    getRelevanceData
        (removeRelevanceItem
          (some (encodeRow (("123456").toList) (("cl").toList)
            [("a").toList, ("b").toList, ("cc").toList]))
          (("123456").toList) 5) (("123456").toList) =
      some ((("cl").toList), [("a").toList, ("b").toList, ("cc").toList]) := by
  have h0 := c4_remove_item (("123456").toList) (("cl").toList)
    (encodeRow (("123456").toList) (("cl").toList)
      [("a").toList, ("b").toList, ("cc").toList])
    [("a").toList, ("b").toList, ("cc").toList] 0
    (by decide) (by decide) (by decide) (by decide) (by decide)
  have h5 := c4_remove_item (("123456").toList) (("cl").toList)
    (encodeRow (("123456").toList) (("cl").toList)
      [("a").toList, ("b").toList, ("cc").toList])
    [("a").toList, ("b").toList, ("cc").toList] 5
    (by decide) (by decide) (by decide) (by decide) (by decide)
  exact ⟨(h0.1 (by decide)).trans (by decide), (h5.2.1 (by decide)).trans (by decide)⟩

/-- Counterexample for C4 as stated: an out-of-range index is not a
byte-level no-op — the cell is re-encoded with extra edge whitespace. -/
theorem c4_remove_item_counterexample :
    removeRelevanceItem (some (("| 123456 | c | a |").toList)) (("123456").toList) 5 ≠
      some (("| 123456 | c | a |").toList) ∧
    removeRelevanceItem (some (("| 123456 | c | a |").toList)) (("123456").toList) 5 =
      some (("| 123456 | c |  a  |").toList) :=
  ⟨by decide, by decide⟩

/-- Witness for C10: duplicate matching rows are both rewritten by the
append edit, and the non-matching line is untouched; the remove edit
rewrites the matching row. -/
theorem c10_item_edit_frame_witness :
    appendRelevance (some (("| 7 | a | x |\nkeep\n| 7 | a | x |").toList))
        (("7").toList) (("y").toList) =
      some (("| 7 | a | x <br> y |\nkeep\n| 7 | a | x <br> y |").toList) ∧
    removeRelevanceItem (some (("| 7 | a | x |\nkeep").toList)) (("7").toList) 0 =
      some (("| 7 | a |  |\nkeep").toList) :=
  ⟨(c10_item_edit_frame (("7").toList) (("y").toList) 0
      (("| 7 | a | x |\nkeep\n| 7 | a | x |").toList)).1.trans (by decide),
    (c10_item_edit_frame (("7").toList) (("y").toList) 0
      (("| 7 | a | x |\nkeep").toList)).2.1.trans (by decide)⟩

end FineGrain
